import Mathlib

/-!
# Verification of the ragkit-ts index lifecycle engine and search path

Shallow embedding of the core of the `ragkit-ts` library:
the incremental indexing transaction (`CodebaseIndexer.index`), the disk
storage layer (`disk-storage`), the text chunker (`TextChunker.chunk`), the
LSH approximate-nearest-neighbour index (`LshIndex`), and the query path
(`CodebaseSearcher`).

Modelling conventions:
* JavaScript `Map` objects are modelled by `JsMap`, an insertion-ordered
  association list with the exact `get`/`set`/`delete` semantics of `Map`
  (set replaces in place, delete removes the entry).
* JavaScript numbers that the code only stores and compares (`modifiedAt`,
  `size`) are modelled as `Int`; embedding vectors are modelled as `List ℚ`
  (the code only forms sums of products and compares them, which is exact
  over ℚ; float rounding is abstracted away).  `cosineSimilarity` needs a
  square root and is therefore valued in `ℝ`.
* Strings are JavaScript strings; `trim` is modelled over ASCII whitespace
  (`Char.isWhitespace`), which agrees with JS `trim` on ASCII input.
* Asynchronous effects are sequentialised: the spec's concurrency model is
  single-threaded cooperative scheduling, and none of the verified claims
  depend on the interleaving order of the bounded worker pool.
-/

set_option maxHeartbeats 1000000

/-! ## JsMap: insertion-ordered association list modelling a JS `Map` -/

/-- A JavaScript `Map` with string keys: an insertion-ordered list of
key/value pairs.  Real `Map`s have unique keys; that is tracked as the
`JsMap.NK` predicate where proofs need it. -/
abbrev JsMap (α : Type) : Type := List (String × α)

namespace JsMap

variable {α : Type}

/-- `Map.prototype.get`: first entry with the key. -/
def get : JsMap α → String → Option α
  | [], _ => none
  | (k', v) :: rest, k => if k' = k then some v else get rest k

/-- `Map.prototype.set`: replace in place if present, else append. -/
def set : JsMap α → String → α → JsMap α
  | [], k, v => [(k, v)]
  | (k', v') :: rest, k, v =>
      if k' = k then (k', v) :: rest else (k', v') :: set rest k v

/-- `Map.prototype.delete`: remove the entry with the key. -/
def delete : JsMap α → String → JsMap α
  | [], _ => []
  | (k', v') :: rest, k => if k' = k then rest else (k', v') :: delete rest k

/-- Insertion-ordered key list (`Map.prototype.keys`). -/
def keys (m : JsMap α) : List String := List.map Prod.fst m

/-- Insertion-ordered value list (`Map.prototype.values`). -/
def values (m : JsMap α) : List α := List.map Prod.snd m

/-- `Map.prototype.size`. -/
def size (m : JsMap α) : Nat := List.length m

/-- Keys are pairwise distinct (always true of a real `Map`). -/
def NK (m : JsMap α) : Prop := (keys m).Nodup

instance (m : JsMap α) : Decidable (NK m) :=
  inferInstanceAs (Decidable (keys m).Nodup)

@[simp] theorem get_nil (k : String) : get ([] : JsMap α) k = none := rfl

theorem get_cons (k' : String) (v : α) (rest : JsMap α) (k : String) :
    get ((k', v) :: rest) k = if k' = k then some v else get rest k := rfl

@[simp] theorem keys_nil : keys ([] : JsMap α) = [] := rfl

@[simp] theorem keys_cons (k : String) (v : α) (m : JsMap α) :
    keys ((k, v) :: m) = k :: keys m := rfl

@[simp] theorem get_set_self (m : JsMap α) (k : String) (v : α) :
    get (set m k v) k = some v := by
  induction m with
  | nil => simp [set, get]
  | cons e rest ih =>
      obtain ⟨k', v'⟩ := e
      by_cases h : k' = k
      · simp [set, get, h]
      · simp [set, get, h, ih]

theorem get_set_ne (m : JsMap α) (k : String) (v : α) (k₁ : String)
    (h : k₁ ≠ k) : get (set m k v) k₁ = get m k₁ := by
  have h' : ¬ k = k₁ := fun hh => h hh.symm
  have h'' : ¬ k₁ = k := h
  induction m with
  | nil => simp [set, get, h']
  | cons e rest ih =>
      obtain ⟨k', v'⟩ := e
      by_cases hk : k' = k
      · subst hk
        simp [set, get, h']
      · by_cases hk₁ : k' = k₁ <;> simp [set, get, hk, hk₁, h'', ih]

theorem get_delete_ne (m : JsMap α) (k k₁ : String) (h : k₁ ≠ k) :
    get (delete m k) k₁ = get m k₁ := by
  have h' : ¬ k = k₁ := fun hh => h hh.symm
  have h'' : ¬ k₁ = k := h
  induction m with
  | nil => simp [delete]
  | cons e rest ih =>
      obtain ⟨k', v'⟩ := e
      by_cases hk : k' = k
      · subst hk
        simp [delete, get, h']
      · by_cases hk₁ : k' = k₁ <;> simp [delete, get, hk, hk₁, h'', ih]

theorem keys_delete (m : JsMap α) (k : String) :
    keys (delete m k) = (keys m).erase k := by
  induction m with
  | nil => simp [delete]
  | cons e rest ih =>
      obtain ⟨k', v'⟩ := e
      by_cases hk : k' = k
      · subst hk
        simp [delete, List.erase_cons_head]
      · have hbeq : (k' == k) = false := beq_false_of_ne hk
        simp only [delete, if_neg hk, keys_cons, List.erase_cons, hbeq,
          Bool.false_eq_true, if_false, ih]

theorem NK.delete {m : JsMap α} (h : NK m) (k : String) : NK (delete m k) := by
  unfold NK at *
  rw [keys_delete]
  exact h.erase k

theorem mem_keys_iff_get_isSome (m : JsMap α) (k : String) :
    k ∈ keys m ↔ (get m k).isSome := by
  induction m with
  | nil => simp [get]
  | cons e rest ih =>
      obtain ⟨k', v'⟩ := e
      by_cases hk : k' = k
      · subst hk
        simp [get]
      · have hk' : ¬ k = k' := fun hh => hk hh.symm
        simp [get, hk, hk', ih]

theorem get_eq_none_of_not_mem_keys {m : JsMap α} {k : String}
    (h : k ∉ keys m) : get m k = none := by
  rcases hg : get m k with _ | v
  · rfl
  · exact absurd ((mem_keys_iff_get_isSome m k).mpr (by simp [hg])) h

theorem get_delete_self {m : JsMap α} (h : NK m) (k : String) :
    get (delete m k) k = none := by
  apply get_eq_none_of_not_mem_keys
  rw [keys_delete]
  intro hmem
  exact ((List.Nodup.mem_erase_iff h).mp hmem).1 rfl

theorem keys_set_mem (m : JsMap α) (k : String) (v : α) (h : k ∈ keys m) :
    keys (set m k v) = keys m := by
  induction m with
  | nil => simp at h
  | cons e rest ih =>
      obtain ⟨k', v'⟩ := e
      by_cases hk : k' = k
      · simp [set, hk]
      · have : k ∈ keys rest := by
          rcases (List.mem_cons.mp (by simpa using h)) with h₁ | h₁
          · exact absurd h₁.symm hk
          · exact h₁
        simp [set, hk, ih this]

theorem keys_set_not_mem (m : JsMap α) (k : String) (v : α)
    (h : k ∉ keys m) : keys (set m k v) = keys m ++ [k] := by
  induction m with
  | nil => simp [set]
  | cons e rest ih =>
      obtain ⟨k', v'⟩ := e
      have hk : k' ≠ k := by
        intro hh
        exact h (by simp [hh])
      have hrest : k ∉ keys rest := by
        intro hh
        exact h (by simp [hh])
      simp [set, hk, ih hrest]

theorem NK.set {m : JsMap α} (h : NK m) (k : String) (v : α) :
    NK (set m k v) := by
  unfold NK at *
  by_cases hmem : k ∈ keys m
  · rw [keys_set_mem m k v hmem]; exact h
  · rw [keys_set_not_mem m k v hmem]
    simpa [List.nodup_append] using ⟨h, hmem⟩

end JsMap

/-! ## Text chunking (`src/chunking/text-chunker.ts`)

`TextChunker.chunk` is modelled over `List Char`.  JS `trim` is modelled by
dropping `Char.isWhitespace` characters at both ends (identical to JS on
ASCII input).  `Math.floor(chunkSize * 0.2)` is modelled as `chunkSize / 5`
(equal for all multiples of 5, and immaterial to the verified claims: it
only selects which newline the window snaps to). -/

/-- JS whitespace predicate, restricted to ASCII. -/
def jsWs (c : Char) : Bool := c.isWhitespace

/-- `String.prototype.trim`: drop whitespace from both ends. -/
def jsTrim (s : List Char) : List Char :=
  ((s.dropWhile jsWs).reverse.dropWhile jsWs).reverse

/-- `content.replace(/\r\n/g, "\n")`: left-to-right non-overlapping
replacement of CRLF by LF. -/
def normalizeCrlf : List Char → List Char
  | [] => []
  | '\r' :: '\n' :: rest => '\n' :: normalizeCrlf rest
  | c :: rest => c :: normalizeCrlf rest

/-- `clean.lastIndexOf("\n", pos)`: the largest index `i ≤ pos` holding a
newline, if any. -/
def lastNewlineLE (s : List Char) (pos : Nat) : Option Nat :=
  (List.range (pos + 1)).foldl
    (fun acc i => if s.get? i = some '\n' then some i else acc) none

/-- One iteration's window end: `min(len, start + chunkSize)`, snapped back
to just after a newline when one occurs in the final fifth of the window
(source lines 705-714). -/
def windowEnd (chunkSize : Nat) (clean : List Char) (start : Nat) : Nat :=
  let e := min clean.length (start + chunkSize)
  if e < clean.length then
    let searchStart := max start (e - chunkSize / 5)
    match lastNewlineLE clean e with
    | some i => if searchStart ≤ i then i + 1 else e
    | none => e
  else e

/-- The successive `(start, end)` windows scanned by the `while` loop of
`TextChunker.chunk` (source lines 704-722).  The next start is
`max(start + 1, end - chunkOverlap)`. -/
def chunkWindows (chunkSize chunkOverlap : Nat) (clean : List Char)
    (start : Nat) : List (Nat × Nat) :=
  if h : start < clean.length then
    let e := windowEnd chunkSize clean start
    if clean.length ≤ e then [(start, e)]
    else (start, e) ::
      chunkWindows chunkSize chunkOverlap clean (max (start + 1) (e - chunkOverlap))
  else []
termination_by clean.length - start
decreasing_by
  simp only [not_le] at *
  omega

/-- `clean.slice(a, b)` for `a ≤ b ≤ clean.length`. -/
def jsSlice (s : List Char) (a b : Nat) : List Char := (s.drop a).take (b - a)

namespace TextChunker

/-- `TextChunker.chunk` (source lines 697-725): normalize CRLF, trim,
then emit the trimmed, non-empty window texts. -/
def chunk (chunkSize chunkOverlap : Nat) (content : List Char) :
    List (List Char) :=
  let clean := jsTrim (normalizeCrlf content)
  if clean = [] then []
  else
    (chunkWindows chunkSize chunkOverlap clean 0).filterMap fun w =>
      let text := jsTrim (jsSlice clean w.1 w.2)
      if text = [] then none else some text

end TextChunker

/-! ### Properties of `jsTrim` and the chunk windows -/

theorem dropWhile_eq_drop_length (p : Char → Bool) (l : List Char) :
    l.dropWhile p = l.drop (l.takeWhile p).length := by
  induction l with
  | nil => rfl
  | cons c t ih =>
      by_cases hp : p c
      · rw [List.dropWhile_cons_of_pos hp, List.takeWhile_cons_of_pos hp]
        simpa using ih
      · rw [List.dropWhile_cons_of_neg hp, List.takeWhile_cons_of_neg hp]
        rfl

theorem length_dropWhile_le (p : Char → Bool) (l : List Char) :
    (l.dropWhile p).length ≤ l.length := by
  rw [dropWhile_eq_drop_length]
  simp

/-- `jsTrim s` is an initial segment of `s.dropWhile jsWs`. -/
theorem jsTrim_eq_take (s : List Char) :
    ∃ k, jsTrim s = (s.dropWhile jsWs).take k := by
  unfold jsTrim
  set y := s.dropWhile jsWs with hy
  rw [dropWhile_eq_drop_length jsWs y.reverse, List.drop_reverse,
    List.reverse_reverse]
  exact ⟨_, rfl⟩

theorem jsTrim_nil : jsTrim [] = [] := rfl

/-- A non-empty trimmed list starts with a non-whitespace character. -/
theorem jsTrim_head_not_ws {s : List Char} {c : Char} {t : List Char}
    (h : jsTrim s = c :: t) : jsWs c = false := by
  obtain ⟨k, hk⟩ := jsTrim_eq_take s
  rw [hk] at h
  have hh : ((s.dropWhile jsWs).take k).head? = some c := by rw [h]; rfl
  rw [List.head?_take] at hh
  by_cases h0 : k = 0
  · simp [h0] at hh
  · rw [if_neg h0] at hh
    have hne : s.dropWhile jsWs ≠ [] := by
      intro hnil
      rw [hnil] at hh
      simp at hh
    have := List.head_dropWhile_not jsWs s hne
    rwa [List.head_eq_iff_head?_eq_some hne |>.mpr hh] at this

theorem jsTrim_eq_nil_iff (s : List Char) :
    jsTrim s = [] ↔ ∀ c ∈ s, jsWs c := by
  constructor
  · intro h c hc
    unfold jsTrim at h
    have h₁ : (s.dropWhile jsWs).reverse.dropWhile jsWs = [] := by
      have := congrArg List.reverse h
      simpa using this
    have h₂ : ∀ x ∈ (s.dropWhile jsWs).reverse, jsWs x :=
      List.dropWhile_eq_nil_iff.mp h₁
    have h₃ : s.dropWhile jsWs = [] := by
      rcases he : s.dropWhile jsWs with _ | ⟨d, r⟩
      · rfl
      · exfalso
        have hne : s.dropWhile jsWs ≠ [] := by rw [he]; simp
        have hd := List.head_dropWhile_not jsWs s hne
        have : (s.dropWhile jsWs).head hne ∈ (s.dropWhile jsWs).reverse := by
          simp [List.head_mem]
        have hmem := h₂ _ this
        rw [hd] at hmem
        simp at hmem
    exact List.dropWhile_eq_nil_iff.mp h₃ c hc
  · intro h
    have h₁ : s.dropWhile jsWs = [] := List.dropWhile_eq_nil_iff.mpr h
    unfold jsTrim
    rw [h₁]
    rfl

theorem jsTrim_idem (s : List Char) : jsTrim (jsTrim s) = jsTrim s := by
  rcases he : jsTrim s with _ | ⟨c, t⟩
  · exact jsTrim_nil
  · have hc : jsWs c = false := jsTrim_head_not_ws he
    -- jsTrim s = X.reverse with X = dropWhile jsWs (reverse (dropWhile jsWs s))
    have hX : jsTrim s = ((s.dropWhile jsWs).reverse.dropWhile jsWs).reverse := rfl
    set X := (s.dropWhile jsWs).reverse.dropWhile jsWs with hXdef
    have hrev : X.reverse = c :: t := by rw [← hX]; exact he
    have hXne : X ≠ [] := by
      intro hnil
      rw [hnil] at hrev
      simp at hrev
    have hXhead : jsWs (X.head hXne) = false :=
      List.head_dropWhile_not jsWs (s.dropWhile jsWs).reverse hXne
    show (((c :: t).dropWhile jsWs).reverse.dropWhile jsWs).reverse = c :: t
    have h₁ : (c :: t).dropWhile jsWs = c :: t :=
      List.dropWhile_cons_of_neg (by simp [hc])
    rw [h₁]
    have h₂ : (c :: t).reverse = X := by
      rw [← hrev, List.reverse_reverse]
    rw [h₂]
    obtain ⟨d, r, hdr⟩ : ∃ d r, X = d :: r := by
      rcases X with _ | ⟨d, r⟩
      · exact absurd rfl hXne
      · exact ⟨d, r, rfl⟩
    have hd : jsWs d = false := by
      have hq : X.head? = some d := by rw [hdr]; rfl
      have hhd : X.head hXne = d :=
        (List.head_eq_iff_head?_eq_some hXne).mpr hq
      rwa [hhd] at hXhead
    rw [hdr, List.dropWhile_cons_of_neg (by simp [hd]), ← hdr]
    exact hrev

theorem jsTrim_length_le (s : List Char) : (jsTrim s).length ≤ s.length := by
  obtain ⟨k, hk⟩ := jsTrim_eq_take s
  rw [hk]
  calc ((s.dropWhile jsWs).take k).length ≤ (s.dropWhile jsWs).length :=
        by simp [List.length_take]
    _ ≤ s.length := length_dropWhile_le jsWs s

/-- Trimming a list that ends in whitespace loses at least that character. -/
theorem jsTrim_length_le_of_last_ws {l₀ : List Char} {c : Char}
    (hc : jsWs c = true) : (jsTrim (l₀ ++ [c])).length ≤ l₀.length := by
  set s := l₀ ++ [c] with hs
  rcases he : s.dropWhile jsWs with _ | ⟨d, r⟩
  · unfold jsTrim
    rw [he]
    simp
  · -- the dropped-from-the-front list still ends in `c`
    have hne : s.dropWhile jsWs ≠ [] := by rw [he]; simp
    have hlt : (s.takeWhile jsWs).length < s.length := by
      have hlen : (s.dropWhile jsWs).length
          = s.length - (s.takeWhile jsWs).length := by
        rw [dropWhile_eq_drop_length]; simp
      rw [he] at hlen
      simp only [List.length_cons] at hlen
      omega
    have hlastq : (s.dropWhile jsWs).getLast? = some c := by
      rw [dropWhile_eq_drop_length, List.getLast?_drop,
        if_neg (not_le.mpr hlt)]
      simp [hs]
    have hlast : (s.dropWhile jsWs).getLast hne = c := by
      have := List.getLast?_eq_getLast (s.dropWhile jsWs) hne
      rw [this] at hlastq
      exact Option.some.inj hlastq
    set y := s.dropWhile jsWs with hy
    have hsplit : y.dropLast ++ [c] = y := by
      rw [← hlast]
      exact List.dropLast_append_getLast hne
    unfold jsTrim
    rw [← hy, ← hsplit]
    rw [List.reverse_append]
    simp only [List.reverse_cons, List.reverse_nil, List.nil_append,
      List.singleton_append]
    rw [List.dropWhile_cons_of_pos hc]
    have h₁ : (y.dropLast.reverse.dropWhile jsWs).length ≤ y.dropLast.length := by
      have := length_dropWhile_le jsWs y.dropLast.reverse
      simpa using this
    have h₂ : y.dropLast.length ≤ l₀.length := by
      have hylen : y.length ≤ s.length := by
        rw [hy]; exact length_dropWhile_le jsWs s
      have : y.dropLast.length = y.length - 1 := by simp
      rw [this]
      have : s.length = l₀.length + 1 := by simp [hs]
      omega
    calc ((y.dropLast.reverse.dropWhile jsWs).reverse).length
        = (y.dropLast.reverse.dropWhile jsWs).length := by simp
      _ ≤ y.dropLast.length := h₁
      _ ≤ l₀.length := h₂

theorem lastNewlineLE_spec (s : List Char) (pos : Nat) :
    ∀ j, lastNewlineLE s pos = some j → s.get? j = some '\n' ∧ j ≤ pos := by
  unfold lastNewlineLE
  have hgen : ∀ (l : List Nat) (acc : Option Nat),
      (∀ j, acc = some j → s.get? j = some '\n' ∧ j ≤ pos) →
      (∀ i ∈ l, i ≤ pos) →
      ∀ j, l.foldl (fun acc i => if s.get? i = some '\n' then some i else acc)
          acc = some j → s.get? j = some '\n' ∧ j ≤ pos := by
    intro l
    induction l with
    | nil => intro acc hacc _ j h; exact hacc j h
    | cons i r ih =>
        intro acc hacc hmem j h
        simp only [List.foldl_cons] at h
        refine ih _ ?_ (fun x hx => hmem x (List.mem_cons_of_mem _ hx)) j h
        intro j' hj'
        by_cases hnl : s.get? i = some '\n'
        · rw [if_pos hnl] at hj'
          obtain rfl : i = j' := Option.some.inj hj'
          exact ⟨hnl, hmem i (List.mem_cons_self _ _)⟩
        · rw [if_neg hnl] at hj'
          exact hacc j' hj'
  intro j h
  refine hgen _ none (by intro j' hj'; cases hj') ?_ j h
  intro i hi
  have := List.mem_range.mp hi
  omega

/-- The window end never reaches past `start + chunkSize` except when it
snaps to the character right after a newline sitting at exactly
`start + chunkSize`. -/
theorem windowEnd_le_or_newline (cs : Nat) (clean : List Char) (s : Nat) :
    windowEnd cs clean s ≤ s + cs ∨
      (windowEnd cs clean s = s + cs + 1 ∧
        clean.get? (s + cs) = some '\n') := by
  unfold windowEnd
  set e₀ := min clean.length (s + cs) with he₀
  have he₀le : e₀ ≤ s + cs := min_le_right _ _
  by_cases hlt : e₀ < clean.length
  · rw [if_pos hlt]
    rcases hnl : lastNewlineLE clean e₀ with _ | i
    · simp only [hnl]
      exact Or.inl he₀le
    · obtain ⟨hni, hile⟩ := lastNewlineLE_spec clean e₀ i hnl
      simp only [hnl]
      by_cases hss : max s (e₀ - cs / 5) ≤ i
      · rw [if_pos hss]
        by_cases hi : i + 1 ≤ s + cs
        · exact Or.inl hi
        · right
          have hie : i = s + cs := by omega
          constructor
          · omega
          · rw [← hie]; exact hni
      · rw [if_neg hss]
        exact Or.inl he₀le
  · rw [if_neg hlt]
    exact Or.inl he₀le

theorem windowEnd_le_length (cs : Nat) (clean : List Char) (s : Nat)
    (hs : s < clean.length) : windowEnd cs clean s ≤ clean.length := by
  unfold windowEnd
  set e₀ := min clean.length (s + cs) with he₀
  by_cases hlt : e₀ < clean.length
  · rw [if_pos hlt]
    rcases hnl : lastNewlineLE clean e₀ with _ | i
    · simp only [hnl]
      exact le_of_lt hlt
    · obtain ⟨hni, hile⟩ := lastNewlineLE_spec clean e₀ i hnl
      simp only [hnl]
      by_cases hss : max s (e₀ - cs / 5) ≤ i
      · rw [if_pos hss]; omega
      · rw [if_neg hss]; exact le_of_lt hlt
  · rw [if_neg hlt]
    exact min_le_left _ _

theorem lt_windowEnd (cs : Nat) (clean : List Char) (s : Nat)
    (hcs : 1 ≤ cs) (hs : s < clean.length) : s < windowEnd cs clean s := by
  unfold windowEnd
  set e₀ := min clean.length (s + cs) with he₀
  have h₁ : s + 1 ≤ e₀ := le_min (by omega) (by omega)
  by_cases hlt : e₀ < clean.length
  · rw [if_pos hlt]
    rcases hnl : lastNewlineLE clean e₀ with _ | i
    · simp only [hnl]
      omega
    · simp only [hnl]
      by_cases hss : max s (e₀ - cs / 5) ≤ i
      · rw [if_pos hss]
        have : s ≤ i := le_trans (le_max_left _ _) hss
        omega
      · rw [if_neg hss]; omega
  · rw [if_neg hlt]; omega

/-- Every window recorded by the loop has its end computed by `windowEnd`
from its start. -/
theorem chunkWindows_ends (cs co : Nat) (clean : List Char) :
    ∀ s, ∀ w ∈ chunkWindows cs co clean s, w.2 = windowEnd cs clean w.1 := by
  intro s
  have hterm : ∀ n s, clean.length - s ≤ n →
      ∀ w ∈ chunkWindows cs co clean s, w.2 = windowEnd cs clean w.1 := by
    intro n
    induction n with
    | zero =>
        intro s hn w hw
        rw [chunkWindows] at hw
        have : ¬ s < clean.length := by omega
        rw [dif_neg this] at hw
        cases hw
    | succ n ih =>
        intro s hn w hw
        rw [chunkWindows] at hw
        by_cases hs : s < clean.length
        · rw [dif_pos hs] at hw
          by_cases hend : clean.length ≤ windowEnd cs clean s
          · rw [if_pos hend] at hw
            rcases List.mem_singleton.mp hw with rfl
            rfl
          · rw [if_neg hend] at hw
            rcases List.mem_cons.mp hw with rfl | hw'
            · rfl
            · exact ih _ (by omega) w hw'
        · rw [dif_neg hs] at hw
          cases hw
  exact hterm (clean.length - s) s le_rfl

/-- Each window starts strictly inside the cleaned text. -/
theorem chunkWindows_start_lt (cs co : Nat) (clean : List Char) :
    ∀ s, ∀ w ∈ chunkWindows cs co clean s, w.1 < clean.length := by
  intro s
  have hterm : ∀ n s, clean.length - s ≤ n →
      ∀ w ∈ chunkWindows cs co clean s, w.1 < clean.length := by
    intro n
    induction n with
    | zero =>
        intro s hn w hw
        rw [chunkWindows] at hw
        have : ¬ s < clean.length := by omega
        rw [dif_neg this] at hw
        cases hw
    | succ n ih =>
        intro s hn w hw
        rw [chunkWindows] at hw
        by_cases hs : s < clean.length
        · rw [dif_pos hs] at hw
          by_cases hend : clean.length ≤ windowEnd cs clean s
          · rw [if_pos hend] at hw
            rcases List.mem_singleton.mp hw with rfl
            exact hs
          · rw [if_neg hend] at hw
            rcases List.mem_cons.mp hw with rfl | hw'
            · exact hs
            · exact ih _ (by omega) w hw'
        · rw [dif_neg hs] at hw
          cases hw
  exact hterm (clean.length - s) s le_rfl

/-- The head of a non-empty window list starts at the loop's start value. -/
theorem chunkWindows_head_start (cs co : Nat) (clean : List Char) (s : Nat) :
    ∀ w ∈ (chunkWindows cs co clean s).head?, w.1 = s := by
  intro w hw
  rw [chunkWindows] at hw
  by_cases hs : s < clean.length
  · rw [dif_pos hs] at hw
    by_cases hend : clean.length ≤ windowEnd cs clean s
    · rw [if_pos hend] at hw
      simp at hw
      rw [← hw]
    · rw [if_neg hend] at hw
      simp at hw
      rw [← hw]
  · rw [dif_neg hs] at hw
    cases hw

/-- Claim C7's advance rule: each successive window starts at
`max(prevStart + 1, prevEnd - chunkOverlap)`. -/
theorem chunkWindows_chain (cs co : Nat) (clean : List Char) (s : Nat) :
    List.Chain' (fun w₁ w₂ => w₂.1 = max (w₁.1 + 1) (w₁.2 - co))
      (chunkWindows cs co clean s) := by
  have hterm : ∀ n s, clean.length - s ≤ n →
      List.Chain' (fun w₁ w₂ => w₂.1 = max (w₁.1 + 1) (w₁.2 - co))
        (chunkWindows cs co clean s) := by
    intro n
    induction n with
    | zero =>
        intro s hn
        rw [chunkWindows]
        have : ¬ s < clean.length := by omega
        rw [dif_neg this]
        exact List.chain'_nil
    | succ n ih =>
        intro s hn
        rw [chunkWindows]
        by_cases hs : s < clean.length
        · rw [dif_pos hs]
          by_cases hend : clean.length ≤ windowEnd cs clean s
          · rw [if_pos hend]
            exact List.chain'_singleton _
          · rw [if_neg hend]
            apply List.Chain'.cons'
            · exact ih _ (by omega)
            · intro w hw
              have := chunkWindows_head_start cs co clean
                (max (s + 1) (windowEnd cs clean s - co)) w hw
              simpa using this
        · rw [dif_neg hs]
          exact List.chain'_nil
  exact hterm (clean.length - s) s le_rfl

/-- Any emitted window text is at most `chunkSize` characters long after
trimming. -/
theorem window_text_length_le (cs co : Nat) (clean : List Char)
    {w : Nat × Nat} (hw : w ∈ chunkWindows cs co clean 0) :
    (jsTrim (jsSlice clean w.1 w.2)).length ≤ cs := by
  obtain ⟨a, b⟩ := w
  have hend : b = windowEnd cs clean a := chunkWindows_ends cs co clean 0 _ hw
  rcases windowEnd_le_or_newline cs clean a with h | ⟨h, hnl⟩
  · -- window no longer than chunkSize
    rw [← hend] at h
    calc (jsTrim (jsSlice clean a b)).length
        ≤ (jsSlice clean a b).length := jsTrim_length_le _
      _ ≤ b - a := by simp [jsSlice, List.length_take]
      _ ≤ cs := by omega
  · -- window is chunkSize + 1 long and ends right after a newline
    rw [← hend] at h
    have hslice : jsSlice clean a b = (clean.drop a).take cs ++ ['\n'] := by
      unfold jsSlice
      have hba : b - a = cs + 1 := by omega
      rw [hba, List.take_succ]
      have : (clean.drop a)[cs]? = some '\n' := by
        rw [List.getElem?_drop]
        rw [← List.get?_eq_getElem?]
        exact hnl
      rw [this]
      rfl
    rw [hslice]
    calc (jsTrim ((clean.drop a).take cs ++ ['\n'])).length
        ≤ ((clean.drop a).take cs).length :=
          jsTrim_length_le_of_last_ws (by decide)
      _ ≤ cs := by simp [List.length_take]

namespace TextChunker

/-- Claim C7: for every input string, `TextChunker.chunk`
(1) first normalizes CRLF to LF and trims, and returns `[]` exactly when
    the result is empty (empty or whitespace-only input);
(2) emits only individually trimmed chunks of length at most `chunkSize`;
(3) starts each successive scan window at
    `max(prevStart + 1, prevEnd - chunkOverlap)` (emitted chunks are the
    trimmed texts of these windows, whitespace-only windows emitting none).
Holds for any positive `chunkSize` (default 1200, overlap 200). -/
theorem chunk_contract (cs co : Nat) (hcs : 1 ≤ cs) (content : List Char) :
    (chunk cs co content = [] ↔ jsTrim (normalizeCrlf content) = [])
    ∧ (∀ t ∈ chunk cs co content, jsTrim t = t ∧ t.length ≤ cs)
    ∧ List.Chain' (fun w₁ w₂ => w₂.1 = max (w₁.1 + 1) (w₁.2 - co))
        (chunkWindows cs co (jsTrim (normalizeCrlf content)) 0) := by
  refine ⟨?_, ?_, chunkWindows_chain cs co _ 0⟩
  · constructor
    · intro h
      by_contra hne
      -- the cleaned text starts with a non-whitespace character,
      -- so the first window emits a non-empty chunk
      unfold chunk at h
      rw [if_neg hne] at h
      set clean := jsTrim (normalizeCrlf content) with hclean
      obtain ⟨c, t, hct⟩ : ∃ c t, clean = c :: t := by
        rcases clean with _ | ⟨c, t⟩
        · exact absurd rfl hne
        · exact ⟨c, t, rfl⟩
      have hct' : jsTrim (normalizeCrlf content) = c :: t := by
        rw [← hclean]; exact hct
      have hc : jsWs c = false := jsTrim_head_not_ws hct'
      have hlen : 0 < clean.length := by rw [hct]; simp
      set e := windowEnd cs clean 0 with hedef
      have he : 1 ≤ e := lt_windowEnd cs clean 0 hcs hlen
      have hfw : ∃ rest, chunkWindows cs co clean 0 = (0, e) :: rest := by
        rw [chunkWindows, dif_pos hlen, ← hedef]
        by_cases hend : clean.length ≤ e
        · rw [if_pos hend]; exact ⟨[], rfl⟩
        · rw [if_neg hend]; exact ⟨_, rfl⟩
      obtain ⟨rest, hrest⟩ := hfw
      rw [hrest] at h
      have hslice : jsSlice clean 0 e = c :: (t.take (e - 1)) := by
        unfold jsSlice
        rw [List.drop_zero, Nat.sub_zero, hct]
        exact List.take_cons he
      have htext : jsTrim (jsSlice clean 0 e) ≠ [] := by
        intro hnil
        have := (jsTrim_eq_nil_iff _).mp hnil c
          (by rw [hslice]; exact List.mem_cons_self _ _)
        rw [hc] at this
        simp at this
      simp only [List.filterMap_cons] at h
      rcases hcase : jsTrim (jsSlice clean 0 e) with _ | _
      · exact htext hcase
      · rw [hcase] at h
        rw [if_neg (by simp)] at h
        simp at h
    · intro h
      unfold chunk
      rw [if_pos h]
  · intro t ht
    unfold chunk at ht
    by_cases hnil : jsTrim (normalizeCrlf content) = []
    · rw [if_pos hnil] at ht
      cases ht
    · rw [if_neg hnil] at ht
      obtain ⟨w, hw, hwt⟩ := List.mem_filterMap.mp ht
      by_cases hcase : jsTrim (jsSlice (jsTrim (normalizeCrlf content)) w.1 w.2) = []
      · rw [if_pos hcase] at hwt
        cases hwt
      · rw [if_neg hcase] at hwt
        obtain rfl : jsTrim (jsSlice (jsTrim (normalizeCrlf content)) w.1 w.2) = t :=
          Option.some.inj hwt
        exact ⟨jsTrim_idem _, window_text_length_le cs co _ hw⟩

end TextChunker

theorem textChunker_chunk_contract_witness :
    (TextChunker.chunk 1200 200 ['h', 'i'] = []
        ↔ jsTrim (normalizeCrlf ['h', 'i']) = [])
    ∧ (∀ t ∈ TextChunker.chunk 1200 200 ['h', 'i'],
        jsTrim t = t ∧ t.length ≤ 1200)
    ∧ List.Chain' (fun w₁ w₂ => w₂.1 = max (w₁.1 + 1) (w₁.2 - 200))
        (chunkWindows 1200 200 (jsTrim (normalizeCrlf ['h', 'i'])) 0) :=
  TextChunker.chunk_contract 1200 200 (by decide) ['h', 'i']

theorem JsMap.get_mem {α : Type} (m : JsMap α) (k : String) (v : α)
    (h : JsMap.get m k = some v) : (k, v) ∈ m := by
  induction m with
  | nil => cases h
  | cons e rest ih =>
      obtain ⟨k', v'⟩ := e
      rw [JsMap.get_cons] at h
      by_cases hk : k' = k
      · rw [if_pos hk] at h
        obtain rfl : v' = v := Option.some.inj h
        subst hk
        exact List.mem_cons_self _ _
      · rw [if_neg hk] at h
        exact List.mem_cons_of_mem _ (ih h)

/-! ## Core data model (`src/types.ts`)

The `symbols` field of a chunk (optional AST metadata) is carried by none of
the verified claims and never inspected by the indexer or searcher paths
under verification, so it is omitted from the record. -/

/-- A chunk record (`RagChunk` in `types.ts`). -/
structure RagChunk where
  id : String
  filePath : String
  modifiedAt : Int
  content : String
  embedding : List ℚ
deriving DecidableEq

/-- Per-file indexing state (`RagFileState` in `types.ts`). -/
structure RagFileState where
  modifiedAt : Int
  size : Int
  contentHash : String
  chunkIds : List String
deriving DecidableEq

/-- Scanner output for one file (`CandidateFile` in `types.ts`);
`fullPath` is omitted, file contents are addressed by `relativePath`. -/
structure CandidateFile where
  relativePath : String
  modifiedAt : Int
  size : Int
deriving DecidableEq

/-! ## Disk storage (`src/storage/disk-storage.ts`)

JSON serialisation is modelled structurally: `saveToDisk` produces the
persisted payloads, `loadFromDisk` consumes them (`none` models a missing,
unreadable or unparseable file).  The loader's dynamic-type checks
(`typeof state.modifiedAt !== "number"`, `!Array.isArray(...)`, the
`size`/`contentHash` coercions) are identities on well-typed records and
are noted where they occur.  JS object key ordering (integer-like keys
first) is immaterial because maps are compared by `get`. -/

def RAG_STORAGE_DIR : String := ".rag-ts"
def RAG_DB_FILE : String := ".rag-db"
def RAG_INDEX_FILE : String := ".rag-index"
def RAG_DB_VERSION : Nat := 1
def RAG_INDEX_VERSION : Nat := 1

/-- POSIX `join(dir, name)` for an absolute directory and a simple name. -/
def pathJoin (dir name : String) : String := dir ++ "/" ++ name

/-- The resolved storage paths of `disk-storage.ts` (`getPaths`).  The
source function declares a single `folderPath` parameter: the storage
directory is always resolved inside the indexed folder itself. -/
structure RagPaths where
  ragDir : String
  dbPath : String
  indexPath : String
deriving DecidableEq

def getPaths (folderPath : String) : RagPaths :=
  let ragDir := pathJoin folderPath RAG_STORAGE_DIR
  { ragDir := ragDir
    dbPath := pathJoin ragDir RAG_DB_FILE
    indexPath := pathJoin ragDir RAG_INDEX_FILE }

/-- The storage directory actually used when the indexer calls
`saveToDisk(cache.folderPath, chunks, fileStates, cache.storagePath)` (and
likewise `loadFromDisk`, `getDbSizeBytes`, `clearStorage`): the storage
functions of `disk-storage.ts` declare no `storagePath` parameter, so under
JS call semantics the extra argument is silently discarded and only
`folderPath` reaches `getPaths`. -/
def storageDirUsed (folderPath : String) (_storagePath : Option String) :
    String :=
  (getPaths folderPath).ragDir

/-- Modelled from the spec: "Storage directory.
`{storagePath ?? folderPath}/.rag-ts/`" — the directory the spec says every
save, load, size and clear operation resolves. -/
def storageDirSpec (folderPath : String) (storagePath : Option String) :
    String :=
  pathJoin (storagePath.getD folderPath) RAG_STORAGE_DIR

/-- Persisted `.rag-db` payload. -/
structure PersistedRagDb where
  version : Nat
  chunks : List RagChunk
deriving DecidableEq

/-- Persisted `.rag-index` payload. -/
structure PersistedRagIndex where
  version : Nat
  updatedAt : Int
  files : List (String × RagFileState)
deriving DecidableEq

/-- `loadFromDisk`'s result. -/
structure LoadResult where
  chunks : JsMap RagChunk
  fileStates : JsMap RagFileState
  lastIndexedAt : Option Int
deriving DecidableEq

/-- `saveToDisk` (source lines 86-109): writes
`{version, chunks: [...chunks.values()]}` and
`{version, updatedAt: Date.now(), files: fromEntries(fileStates)}`. -/
def saveToDisk (chunks : JsMap RagChunk) (fileStates : JsMap RagFileState)
    (now : Int) : PersistedRagDb × PersistedRagIndex :=
  ({ version := RAG_DB_VERSION, chunks := JsMap.values chunks },
   { version := RAG_INDEX_VERSION, updatedAt := now, files := fileStates })

/-- `loadFromDisk` (source lines 31-81).  A chunk is kept when it has a
truthy `id` (and, typed away here, an array `embedding`); a file state is
kept when (typed away here) `modifiedAt` is a number and `chunkIds` an
array, its fields passing through identity coercions. -/
def loadFromDisk (rawDb : Option PersistedRagDb)
    (rawIndex : Option PersistedRagIndex) : LoadResult :=
  let chunks : JsMap RagChunk :=
    match rawDb with
    | some db =>
        if db.version = RAG_DB_VERSION then
          db.chunks.foldl
            (fun m c => if c.id = "" then m else JsMap.set m c.id c) []
        else []
    | none => []
  let fileStates : JsMap RagFileState :=
    match rawIndex with
    | some idx =>
        if idx.version = RAG_INDEX_VERSION then
          idx.files.foldl (fun m e => JsMap.set m e.1 e.2) []
        else []
    | none => []
  let lastIndexedAt : Option Int :=
    match rawIndex with
    | some idx =>
        if idx.version = RAG_INDEX_VERSION then some idx.updatedAt else none
    | none => none
  ⟨chunks, fileStates, lastIndexedAt⟩

/-- Claim C1: the persisted `.rag-ts/` directory resolution.  The spec says
`index(folderA, {outputFolder: folderB})` writes `.rag-ts/` under `folderB`
(`{storagePath ?? folderPath}/.rag-ts/`), and the indexer does pass
`cache.storagePath` — but `disk-storage.ts` takes no such parameter, so the
directory is resolved under `folderA`.  Evaluated at the failing input. -/
theorem storageDir_ignores_outputFolder :
    storageDirUsed "/folderA" (some "/folderB") = "/folderA/.rag-ts"
    ∧ storageDirSpec "/folderA" (some "/folderB") = "/folderB/.rag-ts"
    ∧ storageDirUsed "/folderA" (some "/folderB")
        ≠ storageDirSpec "/folderA" (some "/folderB") := by
  refine ⟨rfl, rfl, ?_⟩
  decide

theorem rebuild_chunks_get (m : JsMap RagChunk) (hNK : JsMap.NK m)
    (hid : ∀ e ∈ m, e.2.id = e.1 ∧ e.2.id ≠ "") :
    ∀ (init : JsMap RagChunk) (k : String),
      JsMap.get ((JsMap.values m).foldl
        (fun acc c => if c.id = "" then acc else JsMap.set acc c.id c) init) k
      = match JsMap.get m k with
        | some c => some c
        | none => JsMap.get init k := by
  induction m with
  | nil =>
      intro init k
      simp [JsMap.values, JsMap.get]
  | cons e rest ih =>
      intro init k
      obtain ⟨k₀, c₀⟩ := e
      obtain ⟨hid₀, hne₀⟩ := hid (k₀, c₀) (List.mem_cons_self _ _)
      have hNKrest : JsMap.NK rest := (List.nodup_cons.mp hNK).2
      have hk₀ : k₀ ∉ JsMap.keys rest := (List.nodup_cons.mp hNK).1
      have hvals : JsMap.values ((k₀, c₀) :: rest) = c₀ :: JsMap.values rest := rfl
      rw [hvals, List.foldl_cons]
      have hstep : (if c₀.id = "" then init else JsMap.set init c₀.id c₀)
          = JsMap.set init k₀ c₀ := by
        rw [if_neg hne₀, hid₀]
      rw [hstep]
      rw [ih hNKrest (fun e he => hid e (List.mem_cons_of_mem _ he)) _ k]
      by_cases hk : k₀ = k
      · subst hk
        have hrest : JsMap.get rest k₀ = none :=
          JsMap.get_eq_none_of_not_mem_keys hk₀
        rw [hrest]
        simp [JsMap.get_cons]
      · have hmk : JsMap.get ((k₀, c₀) :: rest) k = JsMap.get rest k := by
          rw [JsMap.get_cons, if_neg hk]
        rw [hmk]
        rcases JsMap.get rest k with _ | c
        · simp only []
          exact JsMap.get_set_ne init k₀ c₀ k (fun hh => hk hh.symm)
        · rfl

theorem rebuild_states_get (m : JsMap RagFileState) (hNK : JsMap.NK m) :
    ∀ (init : JsMap RagFileState) (k : String),
      JsMap.get (m.foldl (fun acc e => JsMap.set acc e.1 e.2) init) k
      = match JsMap.get m k with
        | some v => some v
        | none => JsMap.get init k := by
  induction m with
  | nil =>
      intro init k
      simp [JsMap.get]
  | cons e rest ih =>
      intro init k
      obtain ⟨k₀, v₀⟩ := e
      have hNKrest : JsMap.NK rest := (List.nodup_cons.mp hNK).2
      have hk₀ : k₀ ∉ JsMap.keys rest := (List.nodup_cons.mp hNK).1
      rw [List.foldl_cons]
      rw [ih hNKrest _ k]
      by_cases hk : k₀ = k
      · subst hk
        have hrest : JsMap.get rest k₀ = none :=
          JsMap.get_eq_none_of_not_mem_keys hk₀
        rw [hrest]
        simp [JsMap.get_cons]
      · have hmk : JsMap.get ((k₀, v₀) :: rest) k = JsMap.get rest k := by
          rw [JsMap.get_cons, if_neg hk]
        rw [hmk]
        rcases JsMap.get rest k with _ | v
        · simp only []
          exact JsMap.get_set_ne init k₀ v₀ k (fun hh => hk hh.symm)
        · rfl

/-- Claim C9: for chunk and file-state maps holding valid records (each
chunk keyed by its own non-empty `id`; file states well-typed), saving and
reloading returns semantically equal maps — `get` agrees on every key, so
the result is independent of key order — and recovers `updatedAt`. -/
theorem saveToDisk_loadFromDisk_roundtrip
    (chunks : JsMap RagChunk) (fileStates : JsMap RagFileState) (now : Int)
    (hck : JsMap.NK chunks) (hfk : JsMap.NK fileStates)
    (hid : ∀ e ∈ chunks, e.2.id = e.1 ∧ e.2.id ≠ "") :
    (∀ k, JsMap.get (loadFromDisk (some (saveToDisk chunks fileStates now).1)
        (some (saveToDisk chunks fileStates now).2)).chunks k
      = JsMap.get chunks k)
    ∧ (∀ p, JsMap.get (loadFromDisk
        (some (saveToDisk chunks fileStates now).1)
        (some (saveToDisk chunks fileStates now).2)).fileStates p
      = JsMap.get fileStates p)
    ∧ (loadFromDisk (some (saveToDisk chunks fileStates now).1)
        (some (saveToDisk chunks fileStates now).2)).lastIndexedAt
      = some now := by
  refine ⟨?_, ?_, rfl⟩
  · intro k
    show JsMap.get ((JsMap.values chunks).foldl
      (fun m c => if c.id = "" then m else JsMap.set m c.id c) []) k
      = JsMap.get chunks k
    rw [rebuild_chunks_get chunks hck hid [] k]
    rcases JsMap.get chunks k with _ | c <;> rfl
  · intro p
    show JsMap.get (fileStates.foldl
      (fun m e => JsMap.set m e.1 e.2) []) p = JsMap.get fileStates p
    rw [rebuild_states_get fileStates hfk [] p]
    rcases JsMap.get fileStates p with _ | v <;> rfl

theorem saveToDisk_loadFromDisk_roundtrip_witness :
    (∀ k, JsMap.get (loadFromDisk
        (some (saveToDisk [("id-1", ⟨"id-1", "a.ts", 1, "hello", [1, 2, 3]⟩)]
          [("a.ts", ⟨1, 5, "abc", ["id-1"]⟩)] 77).1)
        (some (saveToDisk [("id-1", ⟨"id-1", "a.ts", 1, "hello", [1, 2, 3]⟩)]
          [("a.ts", ⟨1, 5, "abc", ["id-1"]⟩)] 77).2)).chunks k
      = JsMap.get [("id-1", ⟨"id-1", "a.ts", 1, "hello", [1, 2, 3]⟩)] k)
    ∧ (∀ p, JsMap.get (loadFromDisk
        (some (saveToDisk [("id-1", ⟨"id-1", "a.ts", 1, "hello", [1, 2, 3]⟩)]
          [("a.ts", ⟨1, 5, "abc", ["id-1"]⟩)] 77).1)
        (some (saveToDisk [("id-1", ⟨"id-1", "a.ts", 1, "hello", [1, 2, 3]⟩)]
          [("a.ts", ⟨1, 5, "abc", ["id-1"]⟩)] 77).2)).fileStates p
      = JsMap.get [("a.ts", ⟨1, 5, "abc", ["id-1"]⟩)] p)
    ∧ (loadFromDisk
        (some (saveToDisk [("id-1", ⟨"id-1", "a.ts", 1, "hello", [1, 2, 3]⟩)]
          [("a.ts", ⟨1, 5, "abc", ["id-1"]⟩)] 77).1)
        (some (saveToDisk [("id-1", ⟨"id-1", "a.ts", 1, "hello", [1, 2, 3]⟩)]
          [("a.ts", ⟨1, 5, "abc", ["id-1"]⟩)] 77).2)).lastIndexedAt
      = some 77 :=
  saveToDisk_loadFromDisk_roundtrip
    [("id-1", ⟨"id-1", "a.ts", 1, "hello", [1, 2, 3]⟩)]
    [("a.ts", ⟨1, 5, "abc", ["id-1"]⟩)] 77
    (by decide) (by decide) (by decide)

/-! ## LSH ANN index (`src/vector/lsh.ts`)

Embedding coordinates are `ℚ`, so dot-product signs are exact.  The
signature loop multiplies `embedding[i] * row[i]` for `i < embedding.length`
(modelled with `zip`; a row shorter than the embedding would give `NaN` in
JS and a `"0"` bit — the library only queries indexes whose rows have
exactly `dimensions` entries, where both agree). -/

def ANN_PROJECTION_DIM : Nat := 16
def ANN_MAX_HAMMING_DISTANCE : Nat := 3
def ANN_FALLBACK_MIN_CANDIDATES : Nat := 32
def ANN_MAX_RERANK_CANDIDATES : Nat := 1200

/-- The four constructor options of `LshIndex` with their defaults. -/
structure LshParams where
  projectionDim : Nat
  maxHammingDistance : Nat
  fallbackMinCandidates : Nat
  maxRerankCandidates : Nat
deriving DecidableEq

def defaultLshParams : LshParams :=
  ⟨ANN_PROJECTION_DIM, ANN_MAX_HAMMING_DISTANCE,
   ANN_FALLBACK_MIN_CANDIDATES, ANN_MAX_RERANK_CANDIDATES⟩

/-- A built index: `{dimensions, projection, buckets}`. -/
structure LshAnnIndex where
  dimensions : Nat
  projection : List (List ℚ)
  buckets : JsMap (List String)
deriving DecidableEq

/-- `dot += embedding[i] * row[i]` over the embedding's indices. -/
def dotQ (a b : List ℚ) : ℚ :=
  (a.zip b).foldl (fun acc p => acc + p.1 * p.2) 0

/-- `signatureForEmbedding`: one bit per projection row, `'1'` iff the dot
product is `≥ 0`. -/
def signatureForEmbedding (embedding : List ℚ)
    (projection : List (List ℚ)) : String :=
  ⟨projection.map (fun row => if 0 ≤ dotQ embedding row then '1' else '0')⟩

/-- `hammingDistance`: `Number.MAX_SAFE_INTEGER` on length mismatch, else
the number of differing positions. -/
def hammingDistance (a b : String) : Nat :=
  if a.length ≠ b.length then 9007199254740991
  else ((a.data.zip b.data).filter (fun p => p.1 != p.2)).length

/-- `flipSignatureBits`: toggle the listed positions. -/
def flipSignatureBits (sig : String) (idxs : List Nat) : String :=
  ⟨idxs.foldl
    (fun cs i => cs.set i (if cs.get? i = some '1' then '0' else '1'))
    sig.data⟩

/-- JS `Set.add`: first-occurrence-order deduplicating append. -/
def insertUnique (l : List String) (x : String) : List String :=
  if x ∈ l then l else l ++ [x]

/-- `buildNearbySignatures`: the signature, its 1-bit flips when
`maxDistance ≥ 1` and its 2-bit flips when `maxDistance ≥ 2`, in Set
insertion order. -/
def buildNearbySignatures (sig : String) (maxDistance : Nat) : List String :=
  let base := [sig]
  let withOnes :=
    if 1 ≤ maxDistance then
      (List.range sig.length).foldl
        (fun acc i => insertUnique acc (flipSignatureBits sig [i])) base
    else base
  if 2 ≤ maxDistance then
    (List.range sig.length).foldl
      (fun acc i =>
        ((List.range sig.length).drop (i + 1)).foldl
          (fun acc2 j => insertUnique acc2 (flipSignatureBits sig [i, j])) acc)
      withOnes
  else withOnes

/-- The inner `for (const id of ids)` loop of `LshIndex.query`: add each id
to the candidate set, stopping once `maxRerankCandidates` is reached. -/
def addIds (cap : Nat) : List String → List String → List String
  | acc, [] => acc
  | acc, id :: rest =>
      let acc₁ := insertUnique acc id
      if cap ≤ acc₁.length then acc₁ else addIds cap acc₁ rest

/-- The bucket-union loop of `LshIndex.query` (source lines 165-174):
skip signatures beyond the Hamming bound, union bucket ids, stop at the
rerank cap. -/
def gatherLoop (p : LshParams) (index : LshAnnIndex) (qSig : String) :
    List String → List String → List String
  | [], acc => acc
  | s :: rest, acc =>
      if p.maxHammingDistance < hammingDistance qSig s then
        gatherLoop p index qSig rest acc
      else
        match JsMap.get index.buckets s with
        | none => gatherLoop p index qSig rest acc
        | some ids =>
            let acc₁ := addIds p.maxRerankCandidates acc ids
            if p.maxRerankCandidates ≤ acc₁.length then acc₁
            else gatherLoop p index qSig rest acc₁

/-- The candidate-id set gathered by `LshIndex.query` before the fallback
check (in Set insertion order; its length is `candidatesById.size`). -/
def gatherCandidates (p : LshParams) (index : LshAnnIndex) (q : List ℚ) :
    List String :=
  let qSig := signatureForEmbedding q index.projection
  gatherLoop p index qSig (buildNearbySignatures qSig p.maxHammingDistance) []

/-- `LshIndex.query` (source lines 158-185). -/
def lshQuery (p : LshParams) (index : LshAnnIndex) (queryEmbedding : List ℚ)
    (chunks : JsMap RagChunk) : Option (List RagChunk) :=
  if index.dimensions ≠ queryEmbedding.length then none
  else
    let cands := gatherCandidates p index queryEmbedding
    if cands.length < p.fallbackMinCandidates then none
    else some (cands.filterMap (fun id => JsMap.get chunks id))

/-- The searcher's rerank pool (source lines 146-149):
`annCandidates ?? Array.from(cache.chunks.values())`. -/
def searchPool (annIndex : Option LshAnnIndex) (p : LshParams)
    (qe : List ℚ) (chunks : JsMap RagChunk) : List RagChunk :=
  match annIndex with
  | some idx => (lshQuery p idx qe chunks).getD (JsMap.values chunks)
  | none => JsMap.values chunks

/-- Claim C8: `LshIndex.query` returns `null` when the query embedding's
length differs from the index's `dimensions`, and returns `null` when the
gathered candidate set is smaller than `fallbackMinCandidates`; in the
searcher a `null` result makes the rerank pool the full chunk set. -/
theorem lshQuery_null_contract (p : LshParams) (index : LshAnnIndex)
    (q : List ℚ) (chunks : JsMap RagChunk) :
    (q.length ≠ index.dimensions → lshQuery p index q chunks = none)
    ∧ ((gatherCandidates p index q).length < p.fallbackMinCandidates →
        lshQuery p index q chunks = none)
    ∧ (lshQuery p index q chunks = none →
        searchPool (some index) p q chunks = JsMap.values chunks) := by
  refine ⟨?_, ?_, ?_⟩
  · intro h
    unfold lshQuery
    rw [if_pos (fun hh => h hh.symm)]
  · intro h
    unfold lshQuery
    by_cases hd : index.dimensions ≠ q.length
    · rw [if_pos hd]
    · rw [if_neg hd]
      simp only [if_pos h]
  · intro h
    unfold searchPool
    simp only [h]
    rfl

theorem lshQuery_null_contract_witness :
    (lshQuery defaultLshParams ⟨1, [], []⟩ [] [] = none)
    ∧ (lshQuery defaultLshParams ⟨1, [], []⟩ [2] [] = none)
    ∧ (searchPool (some ⟨1, [], []⟩) defaultLshParams [2]
        [("c", ⟨"c", "a.ts", 1, "x", [5]⟩)]
      = JsMap.values [("c", ⟨"c", "a.ts", 1, "x", [5]⟩)]) :=
  ⟨(lshQuery_null_contract defaultLshParams ⟨1, [], []⟩ [] []).1 (by decide),
   (lshQuery_null_contract defaultLshParams ⟨1, [], []⟩ [2] []).2.1 (by decide),
   (lshQuery_null_contract defaultLshParams ⟨1, [], []⟩ [2]
      [("c", ⟨"c", "a.ts", 1, "x", [5]⟩)]).2.2 (by decide)⟩

/-! ## Cosine similarity (`src/vector/similarity.ts`) -/

/-- `cosineSimilarity`: `-1` for empty or length-mismatched inputs or a
zero norm, else `dot / (√normA · √normB)`.  The square root forces the
value into `ℝ`. -/
noncomputable def cosineSimilarity (a b : List ℚ) : ℝ :=
  if a.length = 0 ∨ b.length = 0 ∨ a.length ≠ b.length then -1
  else
    let dot := dotQ a b
    let normA := dotQ a a
    let normB := dotQ b b
    if normA = 0 ∨ normB = 0 then -1
    else (dot : ℝ) / (Real.sqrt (normA : ℝ) * Real.sqrt (normB : ℝ))

/-! ## Searcher query path (`src/search/searcher.ts`)

The searcher's two LRU caches are modelled by the value the lookup
returns: the query-result cache as a `JsMap CachedRanking` (a TTL-expired
entry behaves as an absent key), the query-embedding cache as a
`JsMap (List ℚ)`.  The cache-store steps after a recompute mutate only the
caches, never the returned ranking, and are not modelled. -/

def TOP_K : Nat := 6
def QUERY_RESULT_CACHE_TOP_K : Nat := 24

/-- An entry of `queryResultCache`. -/
structure CachedRanking where
  chunkIds : List String
  scores : List ℝ
  revision : Nat

/-- The `FolderCache` fields the query path reads. -/
structure SearchView where
  chunks : JsMap RagChunk
  indexRevision : Nat
  annIndex : Option LshAnnIndex

/-- `String.prototype.trim` on JS strings. -/
def jsTrimS (s : String) : String := ⟨jsTrim s.data⟩

/-- Helper of `collapseWs`: the flag records whether the previous kept
character came from a whitespace run. -/
def collapseWsAux : Bool → List Char → List Char
  | _, [] => []
  | prevWs, c :: rest =>
      if jsWs c then
        if prevWs then collapseWsAux true rest
        else ' ' :: collapseWsAux true rest
      else c :: collapseWsAux false rest

/-- `value.replace(/\s+/g, " ")`: collapse each whitespace run to one
space. -/
def collapseWs (l : List Char) : List Char := collapseWsAux false l

/-- `normalizeQuery`: trim, collapse whitespace, lowercase. -/
def normalizeQuery (value : String) : String :=
  ⟨(collapseWs (jsTrim value.data)).map Char.toLower⟩

/-- `getQueryEmbedding` (source lines 168-177): cached vector if present,
else the first vector of `embed([query])` (`none` when the provider
returns none). -/
def getQueryEmbedding (embedCache : JsMap (List ℚ))
    (embedF : String → Option (List ℚ)) (queryKey query : String) :
    Option (List ℚ) :=
  match JsMap.get embedCache queryKey with
  | some cached => some cached
  | none => embedF query

/-- Serving a valid cached ranking (source lines 132-138): the first
`min(topK, |ids|)` ids, skipping ids whose chunk vanished, paired with the
stored scores. -/
def materializeCached (view : SearchView) (cr : CachedRanking)
    (topK : Nat) : List (RagChunk × ℝ) :=
  (List.range (min topK cr.chunkIds.length)).filterMap fun i =>
    match cr.chunkIds.get? i with
    | none => none
    | some cid =>
        (JsMap.get view.chunks cid).map fun c => (c, cr.scores.getD i 0)

open Classical in
/-- The rerank pipeline (source lines 152-156): cosine-score the pool,
keep strictly positive scores, sort descending (stable, as JS `sort`),
truncate to `cacheTopK`. -/
noncomputable def rankPool (qe : List ℚ) (pool : List RagChunk)
    (cacheTopK : Nat) : List (RagChunk × ℝ) :=
  (((pool.map fun c => (c, cosineSimilarity qe c.embedding)).filter
      fun item => decide (0 < item.2)).mergeSort
      fun a b => decide (b.2 ≤ a.2)).take cacheTopK

/-- The recompute path of `getRankedChunks` (cache miss or invalid cache
entry): embed the trimmed query, build the pool through the ANN index,
rerank, return the first `topK`. -/
noncomputable def recomputeRanked (embedCache : JsMap (List ℚ))
    (embedF : String → Option (List ℚ)) (p : LshParams) (view : SearchView)
    (rawQuery queryKey : String) (topK : Nat) : List (RagChunk × ℝ) :=
  match getQueryEmbedding embedCache embedF queryKey (jsTrimS rawQuery) with
  | none => []
  | some qe =>
      (rankPool qe (searchPool view.annIndex p qe view.chunks)
        (max topK QUERY_RESULT_CACHE_TOP_K)).take topK

/-- `CodebaseSearcher.getRankedChunks` (source lines 117-166). -/
noncomputable def getRankedChunks (embedCache : JsMap (List ℚ))
    (embedF : String → Option (List ℚ)) (resultCache : JsMap CachedRanking)
    (p : LshParams) (view : SearchView) (rawQuery : String) (topK : Nat) :
    List (RagChunk × ℝ) :=
  let queryKey := normalizeQuery rawQuery
  if queryKey = "" then []
  else
    match JsMap.get resultCache queryKey with
    | some cr =>
        if cr.revision = view.indexRevision ∧ topK ≤ cr.chunkIds.length then
          materializeCached view cr topK
        else
          recomputeRanked embedCache embedF p view rawQuery queryKey topK
    | none => recomputeRanked embedCache embedF p view rawQuery queryKey topK

/-- `CodebaseSearcher.getContextForQuery` (source lines 91-111). -/
noncomputable def getContextForQuery (embedCache : JsMap (List ℚ))
    (embedF : String → Option (List ℚ)) (resultCache : JsMap CachedRanking)
    (p : LshParams) (enabled : Bool) (view : SearchView) (query : String) :
    String :=
  if ¬ enabled = true ∨ JsMap.size view.chunks = 0 ∨ jsTrimS query = ""
  then ""
  else
    let ranked :=
      getRankedChunks embedCache embedF resultCache p view query TOP_K
    if ranked.length = 0 then ""
    else
      let lines :=
        ["## RAG Context (project files)",
         "Use the following snippets as additional project context when relevant:",
         ""]
        ++ ranked.foldl
            (fun acc item =>
              acc ++ ["### " ++ item.1.filePath, item.1.content, ""]) []
      jsTrimS (String.intercalate "\n" lines)

/-- Claim C6: a `queryResultCache` entry whose stored revision differs from
the current `indexRevision` (or whose stored list is shorter than `topK`)
is never used: the produced ranking equals the one computed with no cache
entry at all. -/
theorem staleResultCache_never_used (embedCache : JsMap (List ℚ))
    (embedF : String → Option (List ℚ)) (resultCache : JsMap CachedRanking)
    (p : LshParams) (view : SearchView) (rawQuery : String) (topK : Nat)
    (h : ∀ cr, JsMap.get resultCache (normalizeQuery rawQuery) = some cr →
        ¬ (cr.revision = view.indexRevision ∧ topK ≤ cr.chunkIds.length)) :
    getRankedChunks embedCache embedF resultCache p view rawQuery topK
      = getRankedChunks embedCache embedF [] p view rawQuery topK := by
  unfold getRankedChunks
  by_cases hkey : normalizeQuery rawQuery = ""
  · rw [if_pos hkey, if_pos hkey]
  · rw [if_neg hkey, if_neg hkey]
    rcases hget : JsMap.get resultCache (normalizeQuery rawQuery) with _ | cr
    · rfl
    · simp only [JsMap.get_nil]
      rw [if_neg (h cr hget)]

theorem staleResultCache_never_used_witness :
    getRankedChunks [] (fun _ => none)
      [("q", ⟨["a"], [(1 : ℝ)], 5⟩)] defaultLshParams
      ⟨[], 6, none⟩ "q" 1
    = getRankedChunks [] (fun _ => none) [] defaultLshParams
      ⟨[], 6, none⟩ "q" 1 :=
  staleResultCache_never_used [] (fun _ => none)
    [("q", ⟨["a"], [(1 : ℝ)], 5⟩)] defaultLshParams ⟨[], 6, none⟩ "q" 1
    (by
      intro cr h
      have hsome : some (⟨["a"], [(1 : ℝ)], 5⟩ : CachedRanking) = some cr := by
        rw [← h]
        rfl
      obtain rfl := (Option.some.inj hsome).symm
      intro hc
      exact absurd hc.1 (by decide))

theorem searchPool_subset (annIndex : Option LshAnnIndex) (p : LshParams)
    (qe : List ℚ) (chunks : JsMap RagChunk) :
    ∀ c ∈ searchPool annIndex p qe chunks, c ∈ JsMap.values chunks := by
  intro c hc
  unfold searchPool at hc
  rcases annIndex with _ | idx
  · exact hc
  · simp only [] at hc
    rcases hq : lshQuery p idx qe chunks with _ | cands
    · rw [hq] at hc
      exact hc
    · rw [hq] at hc
      simp only [Option.getD_some] at hc
      unfold lshQuery at hq
      by_cases hd : idx.dimensions ≠ qe.length
      · rw [if_pos hd] at hq
        cases hq
      · rw [if_neg hd] at hq
        simp only [] at hq
        by_cases hf : (gatherCandidates p idx qe).length < p.fallbackMinCandidates
        · rw [if_pos hf] at hq
          cases hq
        · rw [if_neg hf] at hq
          obtain rfl := Option.some.inj hq
          obtain ⟨cid, _, hcid⟩ := List.mem_filterMap.mp hc
          have := JsMap.get_mem chunks cid c hcid
          exact List.mem_map.mpr ⟨(cid, c), this, rfl⟩

/-- Claim C10: `getContextForQuery` returns `""` whenever the folder is
disabled, or its chunk map is empty, or the query trims to the empty
string, or (with no applicable result-cache entry, e.g. a fresh searcher)
no chunk scores strictly positive cosine similarity against the query
embedding in use; the function is total, so no error is raised. -/
theorem getContextForQuery_empty_cases (embedCache : JsMap (List ℚ))
    (embedF : String → Option (List ℚ)) (resultCache : JsMap CachedRanking)
    (p : LshParams) (enabled : Bool) (view : SearchView) (query : String)
    (h : enabled = false ∨ view.chunks = [] ∨ jsTrimS query = ""
      ∨ (JsMap.get resultCache (normalizeQuery query) = none
        ∧ ∀ qe, getQueryEmbedding embedCache embedF (normalizeQuery query)
            (jsTrimS query) = some qe →
          ∀ c ∈ JsMap.values view.chunks,
            cosineSimilarity qe c.embedding ≤ 0)) :
    getContextForQuery embedCache embedF resultCache p enabled view query
      = "" := by
  unfold getContextForQuery
  rcases h with h | h | h | ⟨hrc, hscore⟩
  · rw [if_pos (Or.inl (by simp [h]))]
  · rw [if_pos (Or.inr (Or.inl (by simp [h, JsMap.size])))]
  · rw [if_pos (Or.inr (Or.inr h))]
  · by_cases hguard : ¬ enabled = true ∨ JsMap.size view.chunks = 0
      ∨ jsTrimS query = ""
    · rw [if_pos hguard]
    · rw [if_neg hguard]
      have hranked : getRankedChunks embedCache embedF resultCache p view
          query TOP_K = [] := by
        unfold getRankedChunks
        by_cases hkey : normalizeQuery query = ""
        · rw [if_pos hkey]
        · rw [if_neg hkey, hrc]
          unfold recomputeRanked
          rcases hqe : getQueryEmbedding embedCache embedF
              (normalizeQuery query) (jsTrimS query) with _ | qe
          · rfl
          · simp only []
            have hfilter : ((searchPool view.annIndex p qe view.chunks).map
                (fun c => (c, cosineSimilarity qe c.embedding))).filter
                (fun item => decide (0 < item.2)) = [] := by
              rw [List.filter_eq_nil]
              intro item hitem
              obtain ⟨c, hc, rfl⟩ := List.mem_map.mp hitem
              have hle := hscore qe hqe c
                (searchPool_subset view.annIndex p qe view.chunks c hc)
              simp only [decide_eq_true_eq]
              exact not_lt.mpr hle
            unfold rankPool
            rw [hfilter, List.mergeSort_nil, List.take_nil, List.take_nil]
      simp only [hranked]
      simp

theorem cosineSimilarity_one_negOne : cosineSimilarity [1] [-1] = -1 := by
  unfold cosineSimilarity
  rw [if_neg (by norm_num)]
  have hd : dotQ [1] [-1] = -1 := by norm_num [dotQ]
  have hn : dotQ [(1 : ℚ)] [1] = 1 := by norm_num [dotQ]
  have hnb : dotQ [(-1 : ℚ)] [-1] = 1 := by norm_num [dotQ]
  simp only [hd, hn, hnb]
  rw [if_neg (by norm_num)]
  push_cast
  rw [Real.sqrt_one]
  norm_num

theorem getContextForQuery_empty_cases_witness :
    getContextForQuery [] (fun _ => some [1]) [] defaultLshParams true
      ⟨[("c1", ⟨"c1", "a.ts", 1, "x", [-1]⟩)], 0, none⟩ "q" = "" := by
  apply getContextForQuery_empty_cases
  refine Or.inr (Or.inr (Or.inr ⟨rfl, ?_⟩))
  intro qe hqe c hcmem
  have h1 : getQueryEmbedding [] (fun _ => some [1]) (normalizeQuery "q")
      (jsTrimS "q") = some [1] := rfl
  rw [h1] at hqe
  obtain rfl : ([1] : List ℚ) = qe := Option.some.inj hqe
  have hc : c = ⟨"c1", "a.ts", 1, "x", [-1]⟩ := by
    simp [JsMap.values] at hcmem
    exact hcmem
  rw [hc]
  show cosineSimilarity [1] [-1] ≤ 0
  rw [cosineSimilarity_one_negOne]
  norm_num

/-! ## Chunk ids

`chunkId = "{relativePath}::{ordinal}"`.  The decimal numeral contains no
colon, so the path component is recoverable: `mkChunkId` is injective in
the path. -/

def mkChunkId (relativePath : String) (i : Nat) : String :=
  relativePath ++ "::" ++ Nat.repr i

theorem digitChar_ne_colon (n : Nat) : Nat.digitChar n ≠ ':' := by
  by_cases h : n ≤ 15
  · interval_cases n <;> decide
  · unfold Nat.digitChar
    repeat rw [if_neg (by omega)]
    decide

theorem toDigitsCore_ne_colon (b : Nat) :
    ∀ (fuel n : Nat) (ds : List Char), (∀ c ∈ ds, c ≠ ':') →
      ∀ c ∈ Nat.toDigitsCore b fuel n ds, c ≠ ':' := by
  intro fuel
  induction fuel with
  | zero =>
      intro n ds hds c hc
      exact hds c hc
  | succ fuel ih =>
      intro n ds hds c hc
      rw [Nat.toDigitsCore] at hc
      by_cases hz : n / b = 0
      · rw [if_pos hz] at hc
        rcases List.mem_cons.mp hc with rfl | hmem
        · exact digitChar_ne_colon _
        · exact hds c hmem
      · rw [if_neg hz] at hc
        refine ih _ _ ?_ c hc
        intro c' hc'
        rcases List.mem_cons.mp hc' with rfl | hmem
        · exact digitChar_ne_colon _
        · exact hds c' hmem

theorem repr_ne_colon (n : Nat) : ∀ c ∈ (Nat.repr n).data, c ≠ ':' := by
  intro c hc
  have : (Nat.repr n).data = Nat.toDigits 10 n := rfl
  rw [this] at hc
  exact toDigitsCore_ne_colon 10 (n + 1) n [] (by simp) c hc

theorem colon_split {a₁ a₂ b₁ b₂ : List Char}
    (h₁ : ∀ c ∈ a₁, c ≠ ':') (h₂ : ∀ c ∈ a₂, c ≠ ':')
    (heq : a₁ ++ ':' :: b₁ = a₂ ++ ':' :: b₂) : a₁ = a₂ ∧ b₁ = b₂ := by
  induction a₁ generalizing a₂ with
  | nil =>
      rcases a₂ with _ | ⟨c₂, t₂⟩
      · simpa using heq
      · exfalso
        simp only [List.nil_append, List.cons_append, List.cons.injEq] at heq
        exact h₂ c₂ (List.mem_cons_self _ _) heq.1.symm
  | cons c₁ t₁ ih =>
      rcases a₂ with _ | ⟨c₂, t₂⟩
      · exfalso
        simp only [List.nil_append, List.cons_append, List.cons.injEq] at heq
        exact h₁ c₁ (List.mem_cons_self _ _) heq.1
      · simp only [List.cons_append, List.cons.injEq] at heq
        obtain ⟨rfl, heq'⟩ := heq
        obtain ⟨ht, hb⟩ := ih
          (fun c hc => h₁ c (List.mem_cons_of_mem _ hc))
          (fun c hc => h₂ c (List.mem_cons_of_mem _ hc)) heq'
        exact ⟨by rw [ht], hb⟩

theorem mkChunkId_path_inj {p q : String} {i j : Nat}
    (h : mkChunkId p i = mkChunkId q j) : p = q := by
  unfold mkChunkId at h
  have hdata : p.data ++ ':' :: ':' :: (Nat.repr i).data
      = q.data ++ ':' :: ':' :: (Nat.repr j).data := by
    have := congrArg String.data h
    simpa [String.data_append] using this
  have hrev : (Nat.repr i).data.reverse ++ ':' :: (':' :: p.data.reverse)
      = (Nat.repr j).data.reverse ++ ':' :: (':' :: q.data.reverse) := by
    have := congrArg List.reverse hdata
    simpa [List.reverse_append] using this
  have hsplit := colon_split
    (fun c hc => repr_ne_colon i c (List.mem_reverse.mp hc))
    (fun c hc => repr_ne_colon j c (List.mem_reverse.mp hc)) hrev
  have := hsplit.2
  simp only [List.cons.injEq, true_and] at this
  have hpq : p.data = q.data := by
    have := congrArg List.reverse this
    simpa using this
  cases p
  cases q
  exact congrArg String.mk hpq

/-! ## The indexing transaction (`CodebaseIndexer.index`, source lines
217-380)

The in-flight job is modelled as a pure function of the folder state and
an environment supplying the scanner's result and the external effects
(file reads, hashing, chunking, embedding, the cancellation token).  The
worker pool is sequentialised (single-threaded cooperative scheduling; the
verified claims are about the final maps and counters, which do not depend
on the interleaving of the bounded pool).  `rebuildAnnIndex` touches only
the `annIndex` field and is omitted; the status fields not read by any
claim (drift counters, staleness, `lastIndexedAt`, `dbSizeBytes`) are
omitted.  On-disk state is the history of `saveToDisk` payloads.  The
cancellation token is a function of the number of abort checks performed
so far (`TxState.clock`), read at each `signal?.aborted` checkpoint. -/

/-- The status fields the claims read. -/
structure RagStatusM where
  phase : String
  message : String
  totalFiles : Nat
  filesToEmbed : Nat
  embeddedFiles : Nat
  skippedUnchanged : Nat
  totalChunks : Nat
deriving DecidableEq

/-- A thrown error: `AbortError` or any other failure. -/
inductive TxErr where
  | abort : TxErr
  | failure : String → TxErr
deriving DecidableEq

/-- The mutable folder state threaded through one `index()` transaction. -/
structure TxState where
  chunks : JsMap RagChunk
  fileStates : JsMap RagFileState
  indexRevision : Nat
  status : RagStatusM
  disk : List (PersistedRagDb × PersistedRagIndex)
  clock : Nat
deriving DecidableEq

/-- The environment of one transaction: the scanner result and the
external effects.  `sig k` is the value `signal?.aborted` reads at the
k-th checkpoint; `embedBatch` is the injected embedding provider (it may
throw).  The JS loop slicing batches diverges for `embedBatchSize = 0`, so
completed runs are modelled for positive batch sizes. -/
structure IndexEnv where
  candidates : List CandidateFile
  readFile : String → String
  contentHash : String → String
  extOf : String → String
  chunkTexts : String → String → List String
  embedBatch : List String → Except TxErr (List (List ℚ))
  batchSize : Nat
  sig : Nat → Bool
  now : Int

/-- One `signal?.aborted` checkpoint. -/
def checkAbort (env : IndexEnv) (s : TxState) :
    Except (TxErr × TxState) TxState :=
  if env.sig s.clock then Except.error (TxErr.abort, s)
  else Except.ok { s with clock := s.clock + 1 }

/-- `for (const chunkId of state.chunkIds) cache.chunks.delete(chunkId)`. -/
def removeChunkIds (chunks : JsMap RagChunk) (ids : List String) :
    JsMap RagChunk :=
  ids.foldl (fun m cid => JsMap.delete m cid) chunks

/-- One iteration of the deletion pass (source lines 242-253). -/
def deleteStep (currentFiles : List String) (acc : TxState × Bool)
    (p : String) : TxState × Bool :=
  if p ∈ currentFiles then acc
  else
    let s := acc.1
    let s₁ :=
      match JsMap.get s.fileStates p with
      | some st =>
          { s with chunks := removeChunkIds s.chunks st.chunkIds,
                   fileStates := JsMap.delete s.fileStates p }
      | none => { s with fileStates := JsMap.delete s.fileStates p }
    (s₁, true)

/-- The deletion pass over a snapshot of the tracked paths; the boolean is
`changedIndex`. -/
def deletePass (currentFiles : List String) (s : TxState) : TxState × Bool :=
  (JsMap.keys s.fileStates).foldl (deleteStep currentFiles) (s, false)

/-- The metadata fast-path test (source line 259):
`previous && previous.modifiedAt === file.modifiedAt && previous.size ===
file.size`. -/
def metaMatch (fileStates : JsMap RagFileState) (f : CandidateFile) : Bool :=
  match JsMap.get fileStates f.relativePath with
  | some prev => prev.modifiedAt == f.modifiedAt && prev.size == f.size
  | none => false

/-- One iteration of the changed-file detection loop (source lines
256-264). -/
def metaStep (acc : TxState × List CandidateFile) (f : CandidateFile) :
    TxState × List CandidateFile :=
  if metaMatch acc.1.fileStates f then
    ({ acc.1 with status := { acc.1.status with
        skippedUnchanged := acc.1.status.skippedUnchanged + 1 } }, acc.2)
  else (acc.1, acc.2 ++ [f])

def metaPass (s : TxState) (candidates : List CandidateFile) :
    TxState × List CandidateFile :=
  candidates.foldl metaStep (s, [])

/-- A file that survived both fast paths, with its read content and
SHA-1 hash. -/
structure ProcessItem where
  file : CandidateFile
  content : String
  contentHash : String
deriving DecidableEq

/-- The content-hash fast-path test (source line 272):
`previous && previous.contentHash && previous.contentHash ===
contentHash`. -/
def hashMatch (env : IndexEnv) (fileStates : JsMap RagFileState)
    (f : CandidateFile) : Bool :=
  match JsMap.get fileStates f.relativePath with
  | some prev =>
      prev.contentHash != "" &&
        prev.contentHash == env.contentHash (env.readFile f.relativePath)
  | none => false

/-- One iteration of the content-hash verification loop (source lines
268-282): on a hash match the `FileState` is refreshed in place (new
`modifiedAt`/`size`) and the file is skipped. -/
def hashStep (env : IndexEnv) (acc : TxState × List ProcessItem)
    (f : CandidateFile) : TxState × List ProcessItem :=
  let content := env.readFile f.relativePath
  let h := env.contentHash content
  let s := acc.1
  match JsMap.get s.fileStates f.relativePath with
  | some prev =>
      if prev.contentHash != "" && prev.contentHash == h then
        ({ s with
            fileStates := JsMap.set s.fileStates f.relativePath
              { prev with modifiedAt := f.modifiedAt, size := f.size },
            status := { s.status with
              skippedUnchanged := s.status.skippedUnchanged + 1 } }, acc.2)
      else (s, acc.2 ++ [⟨f, content, h⟩])
  | none => (s, acc.2 ++ [⟨f, content, h⟩])

def hashPass (env : IndexEnv) (s : TxState)
    (changedFiles : List CandidateFile) : TxState × List ProcessItem :=
  changedFiles.foldl (hashStep env) (s, [])

/-- `texts.slice(i, i + batchSize)` batching; the fuel equals the list
length, which suffices for every positive batch size. -/
def toBatchesGo (batchSize : Nat) : Nat → List String → List (List String)
  | 0, _ => []
  | _, [] => []
  | fuel + 1, l => l.take batchSize :: toBatchesGo batchSize fuel (l.drop batchSize)

def toBatches (batchSize : Nat) (texts : List String) : List (List String) :=
  toBatchesGo batchSize texts.length texts

/-- The embedding loop of one file (source lines 302-310): an abort check
before each batch, then the provider call; vectors accumulate in order. -/
def embedLoop (env : IndexEnv) :
    List (List String) → TxState →
      Except (TxErr × TxState) (List (List ℚ) × TxState)
  | [], s => Except.ok ([], s)
  | b :: rest, s =>
      match checkAbort env s with
      | Except.error e => Except.error e
      | Except.ok s₁ =>
          match env.embedBatch b with
          | Except.error k => Except.error (k, s₁)
          | Except.ok vs =>
              match embedLoop env rest s₁ with
              | Except.error e => Except.error e
              | Except.ok (vss, s₂) => Except.ok (vs ++ vss, s₂)

/-- The chunk-insertion loop (source lines 320-334): one chunk per text
whose vector is an array, with deterministic id `"{relPath}::{i}"`. -/
def insertChunks (chunks : JsMap RagChunk) (f : CandidateFile)
    (texts : List String) (vectors : List (List ℚ)) :
    JsMap RagChunk × List String :=
  texts.enum.foldl
    (fun acc it =>
      match vectors.get? it.1 with
      | some v =>
          let cid := mkChunkId f.relativePath it.1
          (JsMap.set acc.1 cid
            ⟨cid, f.relativePath, f.modifiedAt, it.2, v⟩, acc.2 ++ [cid])
      | none => acc)
    (chunks, [])

/-- Processing one changed file (source lines 293-347): abort check,
chunking, batched embedding, removal of the file's previous chunks, chunk
and file-state upsert, progress counters. -/
def processFile (env : IndexEnv) (item : ProcessItem) (s : TxState) :
    Except (TxErr × TxState) TxState :=
  match checkAbort env s with
  | Except.error e => Except.error e
  | Except.ok s₁ =>
      let ext := env.extOf item.file.relativePath
      let texts := env.chunkTexts item.content ext
      match embedLoop env (toBatches env.batchSize texts) s₁ with
      | Except.error e => Except.error e
      | Except.ok (vectors, s₂) =>
          let s₃ :=
            match JsMap.get s₂.fileStates item.file.relativePath with
            | some prev =>
                { s₂ with chunks := removeChunkIds s₂.chunks prev.chunkIds }
            | none => s₂
          let inserted := insertChunks s₃.chunks item.file texts vectors
          let s₄ := { s₃ with
            chunks := inserted.1,
            fileStates := JsMap.set s₃.fileStates item.file.relativePath
              ⟨item.file.modifiedAt, item.file.size, item.contentHash,
               inserted.2⟩ }
          Except.ok { s₄ with status := { s₄.status with
            embeddedFiles := s₄.status.embeddedFiles + 1,
            totalChunks := JsMap.size s₄.chunks,
            message := "Embedding " ++ Nat.repr (s₄.status.embeddedFiles + 1)
              ++ "/" ++ Nat.repr s₄.status.filesToEmbed ++ " files..." } }

/-- The sequentialised worker loop (`runWithConcurrency`, source lines
115-138): an aborted-signal check before each item. -/
def workerLoop (env : IndexEnv) :
    List ProcessItem → TxState → Except (TxErr × TxState) TxState
  | [], s => Except.ok s
  | it :: rest, s =>
      match checkAbort env s with
      | Except.error e => Except.error e
      | Except.ok s₁ =>
          match processFile env it s₁ with
          | Except.error e => Except.error e
          | Except.ok s₂ => workerLoop env rest s₂

/-- `runWithConcurrency` returns immediately on an empty item list (source
line 121); otherwise the worker's loop performs one final aborted check
after the last item before returning. -/
def runWorkers (env : IndexEnv) (items : List ProcessItem) (s : TxState) :
    Except (TxErr × TxState) TxState :=
  if items.isEmpty then Except.ok s
  else
    match workerLoop env items s with
    | Except.error e => Except.error e
    | Except.ok s₁ => checkAbort env s₁

/-- The body of the in-flight job (source lines 217-366, after
`ensurePersistedLoaded` and the scan): the post-scan abort check, status
reset, deletion pass, metadata fast-path, content-hash verification,
worker pool, and — only when the index mutated — the `indexRevision` bump
and the disk save. -/
def txBody (env : IndexEnv) (s₀ : TxState) :
    Except (TxErr × TxState) TxState :=
  match checkAbort env s₀ with
  | Except.error e => Except.error e
  | Except.ok s₁ =>
      let currentFiles := env.candidates.map (·.relativePath)
      let s₂ := { s₁ with status := { s₁.status with
          totalFiles := env.candidates.length,
          filesToEmbed := 0,
          skippedUnchanged := 0,
          phase := "embedding",
          message := "Preparing embeddings..." } }
      let del := deletePass currentFiles s₂
      let meta := metaPass del.1 env.candidates
      let hp := hashPass env meta.1 meta.2
      let s₆ := { hp.1 with status := { hp.1.status with
          filesToEmbed := hp.2.length, embeddedFiles := 0 } }
      let changedIndex := del.2 || !hp.2.isEmpty
      match runWorkers env hp.2 s₆ with
      | Except.error e => Except.error e
      | Except.ok s₇ =>
          let s₈ := { s₇ with status := { s₇.status with
              phase := "ready",
              totalChunks := JsMap.size s₇.chunks,
              message := "RAG index is ready" } }
          if changedIndex then
            Except.ok { s₈ with
              indexRevision := s₈.indexRevision + 1,
              disk := s₈.disk
                ++ [saveToDisk s₈.chunks s₈.fileStates env.now] }
          else Except.ok s₈

/-- The `catch` wrapper of the in-flight job (source lines 367-375):
`AbortError` yields `phase = "idle"` with the cancellation message, any
other error yields `phase = "error"` with its message. -/
def runIndexJob (env : IndexEnv) (s₀ : TxState) : TxState :=
  match txBody env s₀ with
  | Except.ok s => s
  | Except.error (TxErr.abort, s) =>
      { s with status := { s.status with
          phase := "idle", message := "Indexing was cancelled" } }
  | Except.error (TxErr.failure msg, s) =>
      { s with status := { s.status with
          phase := "error", message := msg } }

/-- The state carried by a transaction outcome. -/
def stateOf : Except (TxErr × TxState) TxState → TxState
  | Except.ok s => s
  | Except.error (_, s) => s

/-- Whether a transaction outcome is a completed run. -/
def txIsOk : Except (TxErr × TxState) TxState → Bool
  | Except.ok _ => true
  | Except.error _ => false

/-- `message.includes(sub)`. -/
def containsSubstring (s sub : String) : Prop := ∃ l r, s = l ++ sub ++ r

/-! ### Stage lemmas: what each pass of the transaction leaves untouched -/

theorem checkAbort_ok {env : IndexEnv} {s s' : TxState}
    (h : checkAbort env s = Except.ok s') :
    s' = { s with clock := s.clock + 1 } := by
  unfold checkAbort at h
  by_cases hs : env.sig s.clock
  · rw [if_pos hs] at h; cases h
  · rw [if_neg hs] at h; exact (Except.ok.inj h).symm

theorem checkAbort_error {env : IndexEnv} {s s' : TxState} {e : TxErr}
    (h : checkAbort env s = Except.error (e, s')) : s' = s := by
  unfold checkAbort at h
  by_cases hs : env.sig s.clock
  · rw [if_pos hs] at h
    cases Except.error.inj h
    rfl
  · rw [if_neg hs] at h; cases h

/-- Two states that agree on everything except the abort-check counter. -/
def EqExceptClock (a b : TxState) : Prop :=
  a.chunks = b.chunks ∧ a.fileStates = b.fileStates
    ∧ a.indexRevision = b.indexRevision ∧ a.status = b.status
    ∧ a.disk = b.disk

theorem EqExceptClock.refl (a : TxState) : EqExceptClock a a :=
  ⟨rfl, rfl, rfl, rfl, rfl⟩

theorem EqExceptClock.trans {a b c : TxState}
    (h₁ : EqExceptClock a b) (h₂ : EqExceptClock b c) : EqExceptClock a c :=
  ⟨h₁.1.trans h₂.1, h₁.2.1.trans h₂.2.1, h₁.2.2.1.trans h₂.2.2.1,
   h₁.2.2.2.1.trans h₂.2.2.2.1, h₁.2.2.2.2.trans h₂.2.2.2.2⟩

/-- State carried by an embedding-loop outcome. -/
def stateOfEmbed :
    Except (TxErr × TxState) (List (List ℚ) × TxState) → TxState
  | Except.ok (_, s) => s
  | Except.error (_, s) => s

theorem embedLoop_eqc (env : IndexEnv) :
    ∀ (bs : List (List String)) (s : TxState),
      EqExceptClock (stateOfEmbed (embedLoop env bs s)) s := by
  intro bs
  induction bs with
  | nil => intro s; exact EqExceptClock.refl s
  | cons b rest ih =>
      intro s
      unfold embedLoop
      rcases hca : checkAbort env s with ⟨e, s'⟩ | s₁
      · simp only [hca]
        rw [checkAbort_error hca]
        exact EqExceptClock.refl s
      · have hs₁ : EqExceptClock s₁ s := by
          rw [checkAbort_ok hca]
          exact ⟨rfl, rfl, rfl, rfl, rfl⟩
        simp only [hca]
        rcases heb : env.embedBatch b with k | vs
        · simp only [heb]
          exact hs₁
        · simp only [heb]
          rcases hrec : embedLoop env rest s₁ with ⟨e, s₂⟩ | ⟨vss, s₂⟩
          · simp only [hrec]
            have := ih s₁
            rw [hrec] at this
            exact EqExceptClock.trans this hs₁
          · simp only [hrec]
            have := ih s₁
            rw [hrec] at this
            exact EqExceptClock.trans this hs₁

theorem processFile_dr (env : IndexEnv) (item : ProcessItem) (s : TxState) :
    (stateOf (processFile env item s)).disk = s.disk
    ∧ (stateOf (processFile env item s)).indexRevision = s.indexRevision := by
  unfold processFile
  rcases hca : checkAbort env s with ⟨e, s'⟩ | s₁
  · simp only [stateOf]
    rw [checkAbort_error hca]
    exact ⟨rfl, rfl⟩
  · have hs₁ : s₁ = { s with clock := s.clock + 1 } := checkAbort_ok hca
    rcases hel : embedLoop env
        (toBatches env.batchSize (env.chunkTexts item.content
          (env.extOf item.file.relativePath))) s₁ with ⟨e, s₂⟩ | ⟨vectors, s₂⟩
    · simp only [hel, stateOf]
      have := embedLoop_eqc env
        (toBatches env.batchSize (env.chunkTexts item.content
          (env.extOf item.file.relativePath))) s₁
      rw [hel] at this
      unfold stateOfEmbed at this
      rw [hs₁] at this
      exact ⟨this.2.2.2.2, this.2.2.1⟩
    · simp only [hel, stateOf]
      have := embedLoop_eqc env
        (toBatches env.batchSize (env.chunkTexts item.content
          (env.extOf item.file.relativePath))) s₁
      rw [hel] at this
      unfold stateOfEmbed at this
      rw [hs₁] at this
      rcases hget : JsMap.get s₂.fileStates item.file.relativePath with _ | prev
      · simp only [hget]
        exact ⟨this.2.2.2.2, this.2.2.1⟩
      · simp only [hget]
        exact ⟨this.2.2.2.2, this.2.2.1⟩

theorem workerLoop_dr (env : IndexEnv) :
    ∀ (items : List ProcessItem) (s : TxState),
      (stateOf (workerLoop env items s)).disk = s.disk
      ∧ (stateOf (workerLoop env items s)).indexRevision = s.indexRevision := by
  intro items
  induction items with
  | nil => intro s; exact ⟨rfl, rfl⟩
  | cons it rest ih =>
      intro s
      unfold workerLoop
      rcases hca : checkAbort env s with ⟨e, s'⟩ | s₁
      · simp only [stateOf]
        rw [checkAbort_error hca]
        exact ⟨rfl, rfl⟩
      · have hs₁ : s₁ = { s with clock := s.clock + 1 } := checkAbort_ok hca
        rcases hpf : processFile env it s₁ with ⟨e, s₂⟩ | s₂
        · simp only [hpf, stateOf]
          have := processFile_dr env it s₁
          rw [hpf] at this
          unfold stateOf at this
          rw [hs₁] at this
          exact this
        · simp only [hpf]
          have h₂ := processFile_dr env it s₁
          rw [hpf] at h₂
          unfold stateOf at h₂
          rw [hs₁] at h₂
          have h₃ := ih s₂
          exact ⟨h₃.1.trans h₂.1, h₃.2.trans h₂.2⟩

theorem runWorkers_dr (env : IndexEnv) (items : List ProcessItem)
    (s : TxState) :
    (stateOf (runWorkers env items s)).disk = s.disk
    ∧ (stateOf (runWorkers env items s)).indexRevision = s.indexRevision := by
  unfold runWorkers
  by_cases hemp : items.isEmpty
  · rw [if_pos hemp]
    exact ⟨rfl, rfl⟩
  · rw [if_neg hemp]
    rcases hwl : workerLoop env items s with ⟨e, s₁⟩ | s₁
    · simp only [stateOf]
      have := workerLoop_dr env items s
      rw [hwl] at this
      exact this
    · simp only []
      have h₁ := workerLoop_dr env items s
      rw [hwl] at h₁
      unfold stateOf at h₁
      have h₂ : (stateOf (checkAbort env s₁)).disk = s₁.disk
          ∧ (stateOf (checkAbort env s₁)).indexRevision = s₁.indexRevision := by
        unfold checkAbort stateOf
        by_cases hs : env.sig s₁.clock
        · rw [if_pos hs]
          exact ⟨rfl, rfl⟩
        · rw [if_neg hs]
          exact ⟨rfl, rfl⟩
      exact ⟨h₂.1.trans h₁.1, h₂.2.trans h₁.2⟩

theorem deleteStep_frame (cf : List String) (acc : TxState × Bool)
    (p : String) :
    (deleteStep cf acc p).1.disk = acc.1.disk
    ∧ (deleteStep cf acc p).1.indexRevision = acc.1.indexRevision
    ∧ (deleteStep cf acc p).1.status = acc.1.status
    ∧ (deleteStep cf acc p).1.clock = acc.1.clock := by
  unfold deleteStep
  by_cases hp : p ∈ cf
  · rw [if_pos hp]
    exact ⟨rfl, rfl, rfl, rfl⟩
  · rw [if_neg hp]
    rcases hget : JsMap.get acc.1.fileStates p with _ | st <;> simp [hget]

theorem deletePass_fold_frame (cf : List String) :
    ∀ (ks : List String) (acc : TxState × Bool),
      (ks.foldl (deleteStep cf) acc).1.disk = acc.1.disk
      ∧ (ks.foldl (deleteStep cf) acc).1.indexRevision = acc.1.indexRevision
      ∧ (ks.foldl (deleteStep cf) acc).1.status = acc.1.status
      ∧ (ks.foldl (deleteStep cf) acc).1.clock = acc.1.clock := by
  intro ks
  induction ks with
  | nil => intro acc; exact ⟨rfl, rfl, rfl, rfl⟩
  | cons k rest ih =>
      intro acc
      rw [List.foldl_cons]
      have h₁ := deleteStep_frame cf acc k
      have h₂ := ih (deleteStep cf acc k)
      exact ⟨h₂.1.trans h₁.1, h₂.2.1.trans h₁.2.1,
        h₂.2.2.1.trans h₁.2.2.1, h₂.2.2.2.trans h₁.2.2.2⟩

theorem deletePass_frame (cf : List String) (s : TxState) :
    (deletePass cf s).1.disk = s.disk
    ∧ (deletePass cf s).1.indexRevision = s.indexRevision
    ∧ (deletePass cf s).1.status = s.status
    ∧ (deletePass cf s).1.clock = s.clock :=
  deletePass_fold_frame cf (JsMap.keys s.fileStates) (s, false)

theorem metaPass_fold_frame :
    ∀ (cands : List CandidateFile) (acc : TxState × List CandidateFile),
      (cands.foldl metaStep acc).1.chunks = acc.1.chunks
      ∧ (cands.foldl metaStep acc).1.fileStates = acc.1.fileStates
      ∧ (cands.foldl metaStep acc).1.disk = acc.1.disk
      ∧ (cands.foldl metaStep acc).1.indexRevision = acc.1.indexRevision
      ∧ (cands.foldl metaStep acc).1.clock = acc.1.clock
      ∧ (cands.foldl metaStep acc).1.status.totalFiles
          = acc.1.status.totalFiles := by
  intro cands
  induction cands with
  | nil => intro acc; exact ⟨rfl, rfl, rfl, rfl, rfl, rfl⟩
  | cons f rest ih =>
      intro acc
      rw [List.foldl_cons]
      have h₁ : (metaStep acc f).1.chunks = acc.1.chunks
          ∧ (metaStep acc f).1.fileStates = acc.1.fileStates
          ∧ (metaStep acc f).1.disk = acc.1.disk
          ∧ (metaStep acc f).1.indexRevision = acc.1.indexRevision
          ∧ (metaStep acc f).1.clock = acc.1.clock
          ∧ (metaStep acc f).1.status.totalFiles = acc.1.status.totalFiles := by
        unfold metaStep
        by_cases hm : metaMatch acc.1.fileStates f
        · rw [if_pos hm]
          exact ⟨rfl, rfl, rfl, rfl, rfl, rfl⟩
        · rw [if_neg hm]
          exact ⟨rfl, rfl, rfl, rfl, rfl, rfl⟩
      have h₂ := ih (metaStep acc f)
      exact ⟨h₂.1.trans h₁.1, h₂.2.1.trans h₁.2.1, h₂.2.2.1.trans h₁.2.2.1,
        h₂.2.2.2.1.trans h₁.2.2.2.1, h₂.2.2.2.2.1.trans h₁.2.2.2.2.1,
        h₂.2.2.2.2.2.trans h₁.2.2.2.2.2⟩

theorem hashPass_fold_frame (env : IndexEnv) :
    ∀ (cfs : List CandidateFile) (acc : TxState × List ProcessItem),
      (cfs.foldl (hashStep env) acc).1.chunks = acc.1.chunks
      ∧ (cfs.foldl (hashStep env) acc).1.disk = acc.1.disk
      ∧ (cfs.foldl (hashStep env) acc).1.indexRevision = acc.1.indexRevision
      ∧ (cfs.foldl (hashStep env) acc).1.clock = acc.1.clock
      ∧ (cfs.foldl (hashStep env) acc).1.status.totalFiles
          = acc.1.status.totalFiles := by
  intro cfs
  induction cfs with
  | nil => intro acc; exact ⟨rfl, rfl, rfl, rfl, rfl⟩
  | cons f rest ih =>
      intro acc
      rw [List.foldl_cons]
      have h₁ : (hashStep env acc f).1.chunks = acc.1.chunks
          ∧ (hashStep env acc f).1.disk = acc.1.disk
          ∧ (hashStep env acc f).1.indexRevision = acc.1.indexRevision
          ∧ (hashStep env acc f).1.clock = acc.1.clock
          ∧ (hashStep env acc f).1.status.totalFiles
              = acc.1.status.totalFiles := by
        unfold hashStep
        rcases hget : JsMap.get acc.1.fileStates f.relativePath with _ | prev
        · simp [hget]
        · simp only [hget]
          by_cases hh : prev.contentHash != ""
              && prev.contentHash == env.contentHash
                (env.readFile f.relativePath)
          · simp [hh]
          · simp [hh]
      have h₂ := ih (hashStep env acc f)
      exact ⟨h₂.1.trans h₁.1, h₂.2.1.trans h₁.2.1, h₂.2.2.1.trans h₁.2.2.1,
        h₂.2.2.2.1.trans h₁.2.2.2.1, h₂.2.2.2.2.trans h₁.2.2.2.2⟩

theorem metaPass_frame (s : TxState) (cands : List CandidateFile) :
    (metaPass s cands).1.chunks = s.chunks
    ∧ (metaPass s cands).1.fileStates = s.fileStates
    ∧ (metaPass s cands).1.disk = s.disk
    ∧ (metaPass s cands).1.indexRevision = s.indexRevision
    ∧ (metaPass s cands).1.clock = s.clock
    ∧ (metaPass s cands).1.status.totalFiles = s.status.totalFiles :=
  metaPass_fold_frame cands (s, [])

theorem hashPass_frame (env : IndexEnv) (s : TxState)
    (cfs : List CandidateFile) :
    (hashPass env s cfs).1.chunks = s.chunks
    ∧ (hashPass env s cfs).1.disk = s.disk
    ∧ (hashPass env s cfs).1.indexRevision = s.indexRevision
    ∧ (hashPass env s cfs).1.clock = s.clock
    ∧ (hashPass env s cfs).1.status.totalFiles = s.status.totalFiles :=
  hashPass_fold_frame env cfs (s, [])

/-- Any error thrown inside a transaction leaves the on-disk history and
`indexRevision` at their pre-transaction values: the save and the bump are
the very last step of the success path. -/
theorem txBody_error_frame (env : IndexEnv) (s₀ : TxState) (e : TxErr)
    (s₁ : TxState) (h : txBody env s₀ = Except.error (e, s₁)) :
    s₁.disk = s₀.disk ∧ s₁.indexRevision = s₀.indexRevision := by
  unfold txBody at h
  rcases hca : checkAbort env s₀ with ⟨e', s'⟩ | sA
  · rw [hca] at h
    cases Except.error.inj h
    rw [checkAbort_error hca]
    exact ⟨rfl, rfl⟩
  · rw [hca] at h
    simp only [] at h
    have hsA : sA = { s₀ with clock := s₀.clock + 1 } := checkAbort_ok hca
    set s₂ := { sA with status := { sA.status with
        totalFiles := env.candidates.length,
        filesToEmbed := 0,
        skippedUnchanged := 0,
        phase := "embedding",
        message := "Preparing embeddings..." } } with hs₂
    set del := deletePass (env.candidates.map (·.relativePath)) s₂ with hdel
    set meta := metaPass del.1 env.candidates with hmeta
    set hp := hashPass env meta.1 meta.2 with hhp
    set s₆ := { hp.1 with status := { hp.1.status with
        filesToEmbed := hp.2.length, embeddedFiles := 0 } } with hs₆
    have e₁ : hp.1.disk = meta.1.disk := by
      rw [hhp]; exact (hashPass_frame env meta.1 meta.2).2.1
    have e₂ : meta.1.disk = del.1.disk := by
      rw [hmeta]; exact (metaPass_frame del.1 env.candidates).2.2.1
    have e₃ : del.1.disk = s₂.disk := by
      rw [hdel]
      exact (deletePass_frame (env.candidates.map (·.relativePath)) s₂).1
    have e₄ : s₂.disk = s₀.disk := by rw [hs₂, hsA]
    have r₁ : hp.1.indexRevision = meta.1.indexRevision := by
      rw [hhp]; exact (hashPass_frame env meta.1 meta.2).2.2.1
    have r₂ : meta.1.indexRevision = del.1.indexRevision := by
      rw [hmeta]; exact (metaPass_frame del.1 env.candidates).2.2.2.1
    have r₃ : del.1.indexRevision = s₂.indexRevision := by
      rw [hdel]
      exact (deletePass_frame (env.candidates.map (·.relativePath)) s₂).2.1
    have r₄ : s₂.indexRevision = s₀.indexRevision := by rw [hs₂, hsA]
    have hdisk₆ : s₆.disk = s₀.disk := by
      show hp.1.disk = s₀.disk
      rw [e₁, e₂, e₃, e₄]
    have hrev₆ : s₆.indexRevision = s₀.indexRevision := by
      show hp.1.indexRevision = s₀.indexRevision
      rw [r₁, r₂, r₃, r₄]
    rcases hrw : runWorkers env hp.2 s₆ with ⟨e₂, s₇⟩ | s₇
    · rw [hrw] at h
      cases Except.error.inj h
      have := runWorkers_dr env hp.2 s₆
      rw [hrw] at this
      unfold stateOf at this
      exact ⟨this.1.trans hdisk₆, this.2.trans hrev₆⟩
    · rw [hrw] at h
      by_cases hch : (del.2 || !hp.2.isEmpty) = true
      · simp only [hch, if_pos] at h
        cases h
      · simp only [hch] at h
        rw [if_neg (by simpa using hch)] at h
        cases h

/-! ### Decomposing the success path -/

/-- `currentFiles`. -/
def currentOf (env : IndexEnv) : List String :=
  env.candidates.map (·.relativePath)

/-- The state after the post-scan check and the status reset. -/
def prepOf (env : IndexEnv) (s₀ : TxState) : TxState :=
  { s₀ with
    clock := s₀.clock + 1,
    status := { s₀.status with
      totalFiles := env.candidates.length,
      filesToEmbed := 0,
      skippedUnchanged := 0,
      phase := "embedding",
      message := "Preparing embeddings..." } }

def delOf (env : IndexEnv) (s₀ : TxState) : TxState × Bool :=
  deletePass (currentOf env) (prepOf env s₀)

def metaOf (env : IndexEnv) (s₀ : TxState) : TxState × List CandidateFile :=
  metaPass (delOf env s₀).1 env.candidates

def hpOf (env : IndexEnv) (s₀ : TxState) : TxState × List ProcessItem :=
  hashPass env (metaOf env s₀).1 (metaOf env s₀).2

def preWorkerOf (env : IndexEnv) (s₀ : TxState) : TxState :=
  { (hpOf env s₀).1 with status := { (hpOf env s₀).1.status with
      filesToEmbed := (hpOf env s₀).2.length, embeddedFiles := 0 } }

def changedOf (env : IndexEnv) (s₀ : TxState) : Bool :=
  (delOf env s₀).2 || !(hpOf env s₀).2.isEmpty

def readyOf (s : TxState) : TxState :=
  { s with status := { s.status with
      phase := "ready",
      totalChunks := JsMap.size s.chunks,
      message := "RAG index is ready" } }

theorem txBody_ok_decomp (env : IndexEnv) (s₀ s' : TxState)
    (hok : txBody env s₀ = Except.ok s') :
    env.sig s₀.clock = false
    ∧ ∃ s₇, runWorkers env (hpOf env s₀).2 (preWorkerOf env s₀)
        = Except.ok s₇
      ∧ ((changedOf env s₀ = true
          ∧ s' = { readyOf s₇ with
              indexRevision := (readyOf s₇).indexRevision + 1,
              disk := (readyOf s₇).disk
                ++ [saveToDisk (readyOf s₇).chunks (readyOf s₇).fileStates
                    env.now] })
        ∨ (changedOf env s₀ = false ∧ s' = readyOf s₇)) := by
  have hsig : env.sig s₀.clock = false := by
    by_contra hs
    have hs' : env.sig s₀.clock = true := by
      rcases hb : env.sig s₀.clock
      · exact absurd hb hs
      · rfl
    unfold txBody checkAbort at hok
    rw [if_pos hs'] at hok
    cases hok
  refine ⟨hsig, ?_⟩
  have hok' : (match runWorkers env (hpOf env s₀).2 (preWorkerOf env s₀) with
      | Except.error e => Except.error e
      | Except.ok s₇ =>
          if changedOf env s₀ = true
          then Except.ok { readyOf s₇ with
              indexRevision := (readyOf s₇).indexRevision + 1,
              disk := (readyOf s₇).disk
                ++ [saveToDisk (readyOf s₇).chunks (readyOf s₇).fileStates
                    env.now] }
          else Except.ok (readyOf s₇)) = Except.ok s' := by
    rw [← hok]
    show _ = txBody env s₀
    unfold txBody checkAbort
    rw [if_neg (by simp [hsig])]
    rfl
  rcases hrw : runWorkers env (hpOf env s₀).2 (preWorkerOf env s₀)
      with ⟨e, sE⟩ | s₇
  · rw [hrw] at hok'
    cases hok'
  · rw [hrw] at hok'
    simp only [] at hok'
    refine ⟨s₇, rfl, ?_⟩
    by_cases hch : changedOf env s₀ = true
    · rw [if_pos hch] at hok'
      exact Or.inl ⟨hch, (Except.ok.inj hok').symm⟩
    · rw [if_neg hch] at hok'
      exact Or.inr ⟨by simpa using hch, (Except.ok.inj hok').symm⟩

instance {ε α : Type} [DecidableEq ε] [DecidableEq α] :
    DecidableEq (Except ε α) := fun a b =>
  match a, b with
  | Except.ok x, Except.ok y =>
      if h : x = y then isTrue (by rw [h])
      else isFalse (by intro hh; cases hh; exact h rfl)
  | Except.error x, Except.error y =>
      if h : x = y then isTrue (by rw [h])
      else isFalse (by intro hh; cases hh; exact h rfl)
  | Except.ok _, Except.error _ => isFalse (by intro hh; cases hh)
  | Except.error _, Except.ok _ => isFalse (by intro hh; cases hh)

/-- Claim C4: a transaction whose cancellation token aborts before
completion ends with `phase = "idle"`, a message containing "cancelled",
and neither the on-disk `.rag-db`/`.rag-index` history nor `indexRevision`
changed from their pre-transaction values (the save is the success path's
last step and is skipped on abort). -/
theorem index_cancellation_contract (env : IndexEnv) (s₀ s₁ : TxState)
    (h : txBody env s₀ = Except.error (TxErr.abort, s₁)) :
    (runIndexJob env s₀).status.phase = "idle"
    ∧ containsSubstring (runIndexJob env s₀).status.message "cancelled"
    ∧ (runIndexJob env s₀).disk = s₀.disk
    ∧ (runIndexJob env s₀).indexRevision = s₀.indexRevision := by
  have hframe := txBody_error_frame env s₀ TxErr.abort s₁ h
  unfold runIndexJob
  rw [h]
  exact ⟨rfl, ⟨"Indexing was ", "", rfl⟩, hframe.1, hframe.2⟩

def c4Env : IndexEnv :=
  { candidates := [⟨"a.md", 1, 5⟩],
    readFile := fun _ => "alpha",
    contentHash := fun _ => "h1",
    extOf := fun _ => ".md",
    chunkTexts := fun _ _ => ["alpha"],
    embedBatch := fun _ => Except.ok [[1]],
    batchSize := 16,
    sig := fun _ => true,
    now := 0 }

def c4State : TxState :=
  { chunks := [],
    fileStates := [],
    indexRevision := 3,
    status := ⟨"idle", "", 0, 0, 0, 0, 0⟩,
    disk := [],
    clock := 0 }

theorem index_cancellation_contract_witness :
    (runIndexJob c4Env c4State).status.phase = "idle"
    ∧ containsSubstring (runIndexJob c4Env c4State).status.message
        "cancelled"
    ∧ (runIndexJob c4Env c4State).disk = c4State.disk
    ∧ (runIndexJob c4Env c4State).indexRevision = c4State.indexRevision :=
  index_cancellation_contract c4Env c4State c4State (by decide)

/-! ### Claim C2: indexRevision advancement -/

theorem deleteFold_flag_of_acc (cf : List String) :
    ∀ (ks : List String) (acc : TxState × Bool), acc.2 = true →
      (ks.foldl (deleteStep cf) acc).2 = true := by
  intro ks
  induction ks with
  | nil => intro acc h; exact h
  | cons k rest ih =>
      intro acc h
      rw [List.foldl_cons]
      refine ih _ ?_
      unfold deleteStep
      by_cases hk : k ∈ cf
      · rw [if_pos hk]; exact h
      · rw [if_neg hk]

theorem deleteFold_false_id (cf : List String) :
    ∀ (ks : List String) (s : TxState),
      (ks.foldl (deleteStep cf) (s, false)).2 = false →
      (ks.foldl (deleteStep cf) (s, false)).1 = s := by
  intro ks
  induction ks with
  | nil => intro s _; rfl
  | cons k rest ih =>
      intro s h
      rw [List.foldl_cons] at h ⊢
      by_cases hk : k ∈ cf
      · have hstep : deleteStep cf (s, false) k = (s, false) := by
          unfold deleteStep
          rw [if_pos hk]
        rw [hstep] at h ⊢
        exact ih s h
      · exfalso
        have hstep : (deleteStep cf (s, false) k).2 = true := by
          unfold deleteStep
          rw [if_neg hk]
        have := deleteFold_flag_of_acc cf rest _ hstep
        rw [this] at h
        cases h

theorem readyOf_frame (s : TxState) :
    (readyOf s).chunks = s.chunks ∧ (readyOf s).fileStates = s.fileStates
    ∧ (readyOf s).disk = s.disk
    ∧ (readyOf s).indexRevision = s.indexRevision :=
  ⟨rfl, rfl, rfl, rfl⟩

/-- Revision/disk behaviour of a completed transaction: either the index
mutated and the revision advanced by exactly one with a disk save
appended, or nothing mutated and revision, disk and chunk map are all
untouched. -/
theorem txBody_ok_dichotomy (env : IndexEnv) (s₀ s' : TxState)
    (hok : txBody env s₀ = Except.ok s') :
    (changedOf env s₀ = true
      ∧ s'.indexRevision = s₀.indexRevision + 1)
    ∨ (changedOf env s₀ = false
      ∧ s'.indexRevision = s₀.indexRevision
      ∧ s'.disk = s₀.disk ∧ s'.chunks = s₀.chunks) := by
  obtain ⟨hsig, s₇, hrw, hcases⟩ := txBody_ok_decomp env s₀ s' hok
  -- the revision and disk of s₇ are those of s₀
  have hhp1 : (hpOf env s₀).1.indexRevision = (metaOf env s₀).1.indexRevision
      ∧ (hpOf env s₀).1.disk = (metaOf env s₀).1.disk
      ∧ (hpOf env s₀).1.chunks = (metaOf env s₀).1.chunks := by
    have h := hashPass_frame env (metaOf env s₀).1 (metaOf env s₀).2
    exact ⟨h.2.2.1, h.2.1, h.1⟩
  have hmp1 : (metaOf env s₀).1.indexRevision = (delOf env s₀).1.indexRevision
      ∧ (metaOf env s₀).1.disk = (delOf env s₀).1.disk
      ∧ (metaOf env s₀).1.chunks = (delOf env s₀).1.chunks := by
    have h := metaPass_frame (delOf env s₀).1 env.candidates
    exact ⟨h.2.2.2.1, h.2.2.1, h.1⟩
  have hdp1 : (delOf env s₀).1.indexRevision = s₀.indexRevision
      ∧ (delOf env s₀).1.disk = s₀.disk := by
    have h := deletePass_frame (currentOf env) (prepOf env s₀)
    exact ⟨h.2.1, h.1⟩
  have hpre : (preWorkerOf env s₀).indexRevision = s₀.indexRevision
      ∧ (preWorkerOf env s₀).disk = s₀.disk := by
    constructor
    · show (hpOf env s₀).1.indexRevision = s₀.indexRevision
      rw [hhp1.1, hmp1.1, hdp1.1]
    · show (hpOf env s₀).1.disk = s₀.disk
      rw [hhp1.2.1, hmp1.2.1, hdp1.2]
  have hs₇ : s₇.indexRevision = s₀.indexRevision ∧ s₇.disk = s₀.disk := by
    have h := runWorkers_dr env (hpOf env s₀).2 (preWorkerOf env s₀)
    rw [hrw] at h
    unfold stateOf at h
    exact ⟨h.2.trans hpre.1, h.1.trans hpre.2⟩
  rcases hcases with ⟨hch, hs'⟩ | ⟨hch, hs'⟩
  · left
    refine ⟨hch, ?_⟩
    rw [hs']
    show (readyOf s₇).indexRevision + 1 = s₀.indexRevision + 1
    rw [(readyOf_frame s₇).2.2.2, hs₇.1]
  · right
    refine ⟨hch, ?_, ?_, ?_⟩
    · rw [hs', (readyOf_frame s₇).2.2.2, hs₇.1]
    · rw [hs', (readyOf_frame s₇).2.2.1, hs₇.2]
    · -- nothing mutated: the deletion pass deleted nothing and no file
      -- was processed, so the chunk map is exactly the initial one
      have hflags : (delOf env s₀).2 = false ∧ (hpOf env s₀).2 = [] := by
        unfold changedOf at hch
        have h₁ : (delOf env s₀).2 = false := by
          rcases hb : (delOf env s₀).2
          · rfl
          · rw [hb] at hch; simp at hch
        have h₂ : (hpOf env s₀).2.isEmpty = true := by
          rcases hb : (hpOf env s₀).2.isEmpty
          · rw [h₁, hb] at hch; simp at hch
          · rfl
        exact ⟨h₁, List.isEmpty_iff.mp h₂⟩
      have hdel_id : (delOf env s₀).1 = prepOf env s₀ := by
        unfold delOf deletePass
        exact deleteFold_false_id (currentOf env) _ _ (by
          have := hflags.1
          unfold delOf deletePass at this
          exact this)
      have hrw' : runWorkers env (hpOf env s₀).2 (preWorkerOf env s₀)
          = Except.ok (preWorkerOf env s₀) := by
        rw [hflags.2]
        rfl
      have hs₇eq : s₇ = preWorkerOf env s₀ := by
        rw [hrw'] at hrw
        exact (Except.ok.inj hrw).symm
      rw [hs', (readyOf_frame s₇).1, hs₇eq]
      show (hpOf env s₀).1.chunks = s₀.chunks
      rw [hhp1.2.2, hmp1.2.2, hdel_id]
      rfl

/-- Claim C2 (amended): on every completed `index()` transaction the
revision advances by exactly one when the index mutated (a tracked file
was deleted or a changed file re-embedded) — in particular whenever the
chunks map changed — and otherwise stays put; the content-hash fast-path
refresh of a `FileState`'s `modifiedAt`/`size` mutates `fileStates`
without advancing `indexRevision`. -/
theorem indexRevision_advance (env : IndexEnv) (s₀ s' : TxState)
    (hok : txBody env s₀ = Except.ok s') :
    (s'.indexRevision = s₀.indexRevision
      ∨ s'.indexRevision = s₀.indexRevision + 1)
    ∧ (s'.chunks ≠ s₀.chunks → s'.indexRevision = s₀.indexRevision + 1)
    ∧ (s'.indexRevision = s₀.indexRevision → s'.disk = s₀.disk) := by
  rcases txBody_ok_dichotomy env s₀ s' hok with ⟨hch, hrev⟩
    | ⟨hch, hrev, hdisk, hchunks⟩
  · refine ⟨Or.inr hrev, fun _ => hrev, fun h => ?_⟩
    rw [hrev] at h
    omega
  · exact ⟨Or.inl hrev, fun h => absurd hchunks h, fun _ => hdisk⟩

def c2Env : IndexEnv :=
  { candidates := [⟨"a.md", 2, 5⟩],
    readFile := fun _ => "alpha",
    contentHash := fun _ => "h1",
    extOf := fun _ => ".md",
    chunkTexts := fun _ _ => ["alpha"],
    embedBatch := fun _ => Except.ok [[1]],
    batchSize := 16,
    sig := fun _ => false,
    now := 0 }

def c2State : TxState :=
  { chunks := [("a.md::0", ⟨"a.md::0", "a.md", 1, "alpha", [1]⟩)],
    fileStates := [("a.md", ⟨1, 5, "h1", ["a.md::0"]⟩)],
    indexRevision := 7,
    status := ⟨"ready", "", 1, 0, 0, 0, 1⟩,
    disk := [],
    clock := 0 }

/-- Refutation of claim C2 as stated: a completed transaction in which the
content-hash fast-path refreshed a `FileState` (the file's `modifiedAt`
moved from 1 to 2 with unchanged content hash) mutated `fileStates` while
`indexRevision` did not increase. -/
theorem c2_counterexample :
    txIsOk (txBody c2Env c2State) = true
    ∧ (stateOf (txBody c2Env c2State)).fileStates ≠ c2State.fileStates
    ∧ (stateOf (txBody c2Env c2State)).indexRevision
        = c2State.indexRevision := by decide

def c2wEnv : IndexEnv :=
  { candidates := [⟨"a.md", 2, 5⟩],
    readFile := fun _ => "alpha changed",
    contentHash := fun _ => "h2",
    extOf := fun _ => ".md",
    chunkTexts := fun _ _ => ["alpha changed"],
    embedBatch := fun _ => Except.ok [[1]],
    batchSize := 16,
    sig := fun _ => false,
    now := 0 }

theorem indexRevision_advance_witness :
    ((stateOf (txBody c2wEnv c2State)).indexRevision
        = c2State.indexRevision
      ∨ (stateOf (txBody c2wEnv c2State)).indexRevision
        = c2State.indexRevision + 1)
    ∧ ((stateOf (txBody c2wEnv c2State)).chunks ≠ c2State.chunks →
        (stateOf (txBody c2wEnv c2State)).indexRevision
          = c2State.indexRevision + 1)
    ∧ ((stateOf (txBody c2wEnv c2State)).indexRevision
          = c2State.indexRevision →
        (stateOf (txBody c2wEnv c2State)).disk = c2State.disk) :=
  indexRevision_advance c2wEnv c2State (stateOf (txBody c2wEnv c2State))
    (by decide)

/-! ### Claim C5: re-indexing an unchanged tree is a no-op -/

theorem metaMatch_true_iff (fs : JsMap RagFileState) (f : CandidateFile) :
    metaMatch fs f = true ↔
      ∃ prev, JsMap.get fs f.relativePath = some prev
        ∧ prev.modifiedAt = f.modifiedAt ∧ prev.size = f.size := by
  unfold metaMatch
  rcases hget : JsMap.get fs f.relativePath with _ | prev
  · simp
  · simp [Bool.and_eq_true, beq_iff_eq]

theorem hashMatch_true_iff (env : IndexEnv) (fs : JsMap RagFileState)
    (f : CandidateFile) :
    hashMatch env fs f = true ↔
      ∃ prev, JsMap.get fs f.relativePath = some prev
        ∧ prev.contentHash ≠ ""
        ∧ prev.contentHash = env.contentHash (env.readFile f.relativePath) := by
  unfold hashMatch
  rcases hget : JsMap.get fs f.relativePath with _ | prev
  · simp
  · simp [Bool.and_eq_true, beq_iff_eq, bne_iff_ne]

theorem deleteFold_all_mem (cf : List String) :
    ∀ (ks : List String) (acc : TxState × Bool), (∀ k ∈ ks, k ∈ cf) →
      ks.foldl (deleteStep cf) acc = acc := by
  intro ks
  induction ks with
  | nil => intro acc _; rfl
  | cons k rest ih =>
      intro acc hmem
      rw [List.foldl_cons]
      have hk : k ∈ cf := hmem k (List.mem_cons_self _ _)
      have hstep : deleteStep cf acc k = acc := by
        unfold deleteStep
        rw [if_pos hk]
      rw [hstep]
      exact ih acc (fun k' hk' => hmem k' (List.mem_cons_of_mem _ hk'))

theorem metaFold_cf :
    ∀ (cands : List CandidateFile) (s : TxState) (cf0 : List CandidateFile),
      (cands.foldl metaStep (s, cf0)).2
        = cf0 ++ cands.filter (fun f => !(metaMatch s.fileStates f)) := by
  intro cands
  induction cands with
  | nil => intro s cf0; simp
  | cons f rest ih =>
      intro s cf0
      rw [List.foldl_cons]
      by_cases hm : metaMatch s.fileStates f
      · have hstep : metaStep (s, cf0) f
            = ({ s with status := { s.status with
                skippedUnchanged := s.status.skippedUnchanged + 1 } }, cf0) := by
          unfold metaStep
          rw [if_pos hm]
        rw [hstep, ih]
        simp [hm]
      · have hstep : metaStep (s, cf0) f = (s, cf0 ++ [f]) := by
          unfold metaStep
          rw [if_neg hm]
        rw [hstep, ih]
        simp [hm]

theorem metaFold_skipped :
    ∀ (cands : List CandidateFile) (s : TxState) (cf0 : List CandidateFile),
      (cands.foldl metaStep (s, cf0)).1.status.skippedUnchanged
        = s.status.skippedUnchanged
          + (cands.filter (fun f => metaMatch s.fileStates f)).length := by
  intro cands
  induction cands with
  | nil => intro s cf0; simp
  | cons f rest ih =>
      intro s cf0
      rw [List.foldl_cons]
      by_cases hm : metaMatch s.fileStates f
      · have hstep : metaStep (s, cf0) f
            = ({ s with status := { s.status with
                skippedUnchanged := s.status.skippedUnchanged + 1 } }, cf0) := by
          unfold metaStep
          rw [if_pos hm]
        rw [hstep, ih]
        simp only [List.filter_cons, hm, if_pos]
        simp
        omega
      · have hstep : metaStep (s, cf0) f = (s, cf0 ++ [f]) := by
          unfold metaStep
          rw [if_neg hm]
        rw [hstep, ih]
        simp [hm]

theorem hashMatch_preserved (env : IndexEnv) (fs : JsMap RagFileState)
    (r : String) (prev : RagFileState) (m z : Int)
    (hget : JsMap.get fs r = some prev) (f : CandidateFile)
    (h : hashMatch env fs f = true) :
    hashMatch env (JsMap.set fs r
      { prev with modifiedAt := m, size := z }) f = true := by
  rw [hashMatch_true_iff] at h ⊢
  obtain ⟨prev', hget', hne, heq⟩ := h
  by_cases hr : f.relativePath = r
  · subst hr
    have hpp : prev' = prev := by
      rw [hget] at hget'
      exact (Option.some.inj hget').symm
    subst hpp
    exact ⟨{ prev' with modifiedAt := m, size := z },
      by rw [JsMap.get_set_self], hne, heq⟩
  · exact ⟨prev', by rw [JsMap.get_set_ne fs r _ _ hr]; exact hget', hne, heq⟩

theorem hashFold_allmatch (env : IndexEnv) :
    ∀ (cfs : List CandidateFile) (s : TxState) (items0 : List ProcessItem),
      (∀ f ∈ cfs, hashMatch env s.fileStates f = true) →
      (cfs.foldl (hashStep env) (s, items0)).2 = items0
      ∧ (cfs.foldl (hashStep env) (s, items0)).1.status.skippedUnchanged
          = s.status.skippedUnchanged + cfs.length := by
  intro cfs
  induction cfs with
  | nil => intro s items0 _; exact ⟨rfl, by simp⟩
  | cons f rest ih =>
      intro s items0 hall
      have hf := hall f (List.mem_cons_self _ _)
      rw [hashMatch_true_iff] at hf
      obtain ⟨prev, hget, hne, heq⟩ := hf
      have hcond : (prev.contentHash != ""
          && prev.contentHash
            == env.contentHash (env.readFile f.relativePath)) = true := by
        simp only [Bool.and_eq_true, bne_iff_ne, beq_iff_eq]
        exact ⟨hne, heq⟩
      have hstep : hashStep env (s, items0) f
          = ({ s with
              fileStates := JsMap.set s.fileStates f.relativePath
                { prev with modifiedAt := f.modifiedAt, size := f.size },
              status := { s.status with
                skippedUnchanged := s.status.skippedUnchanged + 1 } },
             items0) := by
        unfold hashStep
        simp only [hget]
        rw [if_pos hcond]
      rw [List.foldl_cons, hstep]
      set s₁ : TxState := { s with
          fileStates := JsMap.set s.fileStates f.relativePath
            { prev with modifiedAt := f.modifiedAt, size := f.size },
          status := { s.status with
            skippedUnchanged := s.status.skippedUnchanged + 1 } } with hs₁
      have hrest : ∀ f' ∈ rest,
          hashMatch env s₁.fileStates f' = true := by
        intro f' hf'
        exact hashMatch_preserved env s.fileStates f.relativePath prev
          f.modifiedAt f.size hget f' (hall f' (List.mem_cons_of_mem _ hf'))
      have hih := ih s₁ items0 hrest
      refine ⟨hih.1, ?_⟩
      rw [hih.2]
      show s.status.skippedUnchanged + 1 + rest.length
        = s.status.skippedUnchanged + (f :: rest).length
      simp
      omega

theorem filter_length_split {α : Type} (p : α → Bool) (l : List α) :
    (l.filter p).length + (l.filter (fun a => !(p a))).length = l.length := by
  induction l with
  | nil => rfl
  | cons a rest ih =>
      by_cases hp : p a
      · simp [List.filter_cons, hp, ih]
        omega
      · simp [List.filter_cons, hp]
        omega

/-- Claim C5: re-running `index()` on a tree whose files are all unchanged
(per-file metadata match, or content-hash match) with no deleted tracked
files is a no-op: the final status counts every file as skipped
(`skippedUnchanged = totalFiles`), `indexRevision` is not advanced, and
`saveToDisk` is not called (the on-disk history is untouched). -/
theorem unchanged_tree_reindex_noop (env : IndexEnv) (s₀ s' : TxState)
    (hnodel : ∀ p ∈ JsMap.keys s₀.fileStates, p ∈ currentOf env)
    (hunch : ∀ f ∈ env.candidates,
      metaMatch s₀.fileStates f = true
      ∨ hashMatch env s₀.fileStates f = true)
    (hok : txBody env s₀ = Except.ok s') :
    s'.status.skippedUnchanged = s'.status.totalFiles
    ∧ s'.status.totalFiles = env.candidates.length
    ∧ s'.indexRevision = s₀.indexRevision
    ∧ s'.disk = s₀.disk := by
  have hfsprep : (prepOf env s₀).fileStates = s₀.fileStates := rfl
  have hdel_id : delOf env s₀ = (prepOf env s₀, false) := by
    unfold delOf deletePass
    rw [hfsprep]
    exact deleteFold_all_mem (currentOf env) _ _ hnodel
  have hmeta1fs : (metaOf env s₀).1.fileStates = s₀.fileStates := by
    have h := (metaPass_frame (delOf env s₀).1 env.candidates).2.1
    unfold metaOf
    rw [h, hdel_id]
    rfl
  have hmeta2 : (metaOf env s₀).2
      = env.candidates.filter (fun f => !(metaMatch s₀.fileStates f)) := by
    unfold metaOf metaPass
    rw [hdel_id]
    have h1 := metaFold_cf env.candidates (prepOf env s₀) []
    rw [hfsprep] at h1
    simpa using h1
  have hmeta_skip : (metaOf env s₀).1.status.skippedUnchanged
      = (env.candidates.filter
          (fun f => metaMatch s₀.fileStates f)).length := by
    unfold metaOf metaPass
    rw [hdel_id]
    have h1 := metaFold_skipped env.candidates (prepOf env s₀) []
    rw [hfsprep] at h1
    have hz : (prepOf env s₀).status.skippedUnchanged = 0 := rfl
    rw [hz] at h1
    simpa using h1
  have hcf_hash : ∀ f ∈ (metaOf env s₀).2,
      hashMatch env (metaOf env s₀).1.fileStates f = true := by
    intro f hf
    rw [hmeta2] at hf
    obtain ⟨hfc, hnm⟩ := List.mem_filter.mp hf
    rw [hmeta1fs]
    rcases hunch f hfc with hm | hh
    · rw [hm] at hnm
      cases hnm
    · exact hh
  have hhash := hashFold_allmatch env (metaOf env s₀).2 (metaOf env s₀).1 []
    hcf_hash
  have hhp2 : (hpOf env s₀).2 = [] := hhash.1
  have hhp_skip : (hpOf env s₀).1.status.skippedUnchanged
      = env.candidates.length := by
    show ((metaOf env s₀).2.foldl (hashStep env)
      ((metaOf env s₀).1, [])).1.status.skippedUnchanged
      = env.candidates.length
    rw [hhash.2, hmeta_skip, hmeta2]
    exact filter_length_split
      (fun f => metaMatch s₀.fileStates f) env.candidates
  have hch : changedOf env s₀ = false := by
    unfold changedOf
    rw [hhp2]
    have : (delOf env s₀).2 = false := by rw [hdel_id]
    rw [this]
    rfl
  obtain ⟨hsig, s₇, hrw, hcases⟩ := txBody_ok_decomp env s₀ s' hok
  rcases hcases with ⟨hct, _⟩ | ⟨_, hs'⟩
  · rw [hch] at hct
    cases hct
  · have hs₇ : s₇ = preWorkerOf env s₀ := by
      rw [hhp2] at hrw
      exact (Except.ok.inj (by rw [← hrw]; rfl)).symm
    have htot : (hpOf env s₀).1.status.totalFiles
        = env.candidates.length := by
      have h₁ := (hashPass_frame env (metaOf env s₀).1
        (metaOf env s₀).2).2.2.2.2
      have h₂ := (metaPass_frame (delOf env s₀).1 env.candidates).2.2.2.2.2
      show (hashPass env (metaOf env s₀).1 (metaOf env s₀).2).1.status.totalFiles
        = env.candidates.length
      rw [h₁]
      show (metaPass (delOf env s₀).1 env.candidates).1.status.totalFiles
        = env.candidates.length
      rw [h₂, hdel_id]
      rfl
    have hskip' : s'.status.skippedUnchanged = env.candidates.length := by
      rw [hs', hs₇]
      show (hpOf env s₀).1.status.skippedUnchanged = env.candidates.length
      exact hhp_skip
    have htot' : s'.status.totalFiles = env.candidates.length := by
      rw [hs', hs₇]
      show (hpOf env s₀).1.status.totalFiles = env.candidates.length
      exact htot
    rcases txBody_ok_dichotomy env s₀ s' hok with ⟨hct, _⟩
      | ⟨_, hrev, hdisk, _⟩
    · rw [hch] at hct
      cases hct
    · exact ⟨by rw [hskip', htot'], htot', hrev, hdisk⟩

def c5Env : IndexEnv :=
  { candidates := [⟨"a.md", 1, 5⟩],
    readFile := fun _ => "alpha",
    contentHash := fun _ => "h1",
    extOf := fun _ => ".md",
    chunkTexts := fun _ _ => ["alpha"],
    embedBatch := fun _ => Except.ok [[1]],
    batchSize := 16,
    sig := fun _ => false,
    now := 0 }

def c5State : TxState :=
  { chunks := [("a.md::0", ⟨"a.md::0", "a.md", 1, "alpha", [1]⟩)],
    fileStates := [("a.md", ⟨1, 5, "h1", ["a.md::0"]⟩)],
    indexRevision := 4,
    status := ⟨"ready", "", 1, 0, 0, 0, 1⟩,
    disk := [],
    clock := 0 }

theorem unchanged_tree_reindex_noop_witness :
    (stateOf (txBody c5Env c5State)).status.skippedUnchanged
        = (stateOf (txBody c5Env c5State)).status.totalFiles
    ∧ (stateOf (txBody c5Env c5State)).status.totalFiles
        = c5Env.candidates.length
    ∧ (stateOf (txBody c5Env c5State)).indexRevision
        = c5State.indexRevision
    ∧ (stateOf (txBody c5Env c5State)).disk = c5State.disk :=
  unchanged_tree_reindex_noop c5Env c5State
    (stateOf (txBody c5Env c5State)) (by decide) (by decide) (by decide)

/-! ### Claim C3: chunk-map / file-state consistency -/

theorem removeChunkIds_get_some {m : JsMap RagChunk} (hNK : JsMap.NK m)
    {ids : List String} {cid : String} {c : RagChunk}
    (h : JsMap.get (removeChunkIds m ids) cid = some c) :
    JsMap.get m cid = some c := by
  induction ids generalizing m with
  | nil => exact h
  | cons i rest ih =>
      unfold removeChunkIds at h ih
      rw [List.foldl_cons] at h
      have h₁ := ih (hNK.delete i) h
      by_cases hci : cid = i
      · subst hci
        rw [JsMap.get_delete_self hNK] at h₁
        cases h₁
      · rwa [JsMap.get_delete_ne m i cid hci] at h₁

theorem removeChunkIds_get_none {m : JsMap RagChunk} (hNK : JsMap.NK m)
    {ids : List String} {cid : String} (h : JsMap.get m cid = none) :
    JsMap.get (removeChunkIds m ids) cid = none := by
  rcases hg : JsMap.get (removeChunkIds m ids) cid with _ | c
  · rfl
  · rw [removeChunkIds_get_some hNK hg] at h
    cases h

theorem removeChunkIds_get_not_mem {m : JsMap RagChunk} {ids : List String}
    {cid : String} (h : cid ∉ ids) :
    JsMap.get (removeChunkIds m ids) cid = JsMap.get m cid := by
  induction ids generalizing m with
  | nil => rfl
  | cons i rest ih =>
      unfold removeChunkIds at ih ⊢
      rw [List.foldl_cons]
      have hne : cid ≠ i := fun hh => h (hh ▸ List.mem_cons_self _ _)
      rw [ih (fun hh => h (List.mem_cons_of_mem _ hh)),
        JsMap.get_delete_ne m i cid hne]

theorem removeChunkIds_NK {m : JsMap RagChunk} (h : JsMap.NK m)
    (ids : List String) : JsMap.NK (removeChunkIds m ids) := by
  induction ids generalizing m with
  | nil => exact h
  | cons i rest ih =>
      unfold removeChunkIds at ih ⊢
      rw [List.foldl_cons]
      exact ih (h.delete i)

theorem removeChunkIds_get_mem {m : JsMap RagChunk} (hNK : JsMap.NK m)
    {ids : List String} {cid : String} (h : cid ∈ ids) :
    JsMap.get (removeChunkIds m ids) cid = none := by
  induction ids generalizing m with
  | nil => cases h
  | cons i rest ih =>
      unfold removeChunkIds at ih ⊢
      rw [List.foldl_cons]
      by_cases hmem : cid ∈ rest
      · exact ih (hNK.delete i) hmem
      · have hci : cid = i := by
          rcases List.mem_cons.mp h with h' | h'
          · exact h'
          · exact absurd h' hmem
        subst hci
        exact removeChunkIds_get_none (hNK.delete cid)
          (JsMap.get_delete_self hNK cid)

/-- The engine's well-formedness invariant over the two maps: unique
`Map` keys; every listed chunk id exists (the claim's first part); every
chunk key is owned; and owned ids are well-formed (`"{path}::{i}"`), which
makes ownership unique. -/
structure MapsWF (chunks : JsMap RagChunk)
    (fileStates : JsMap RagFileState) : Prop where
  nkChunks : JsMap.NK chunks
  nkStates : JsMap.NK fileStates
  idsExist : ∀ p fs, JsMap.get fileStates p = some fs →
    ∀ cid ∈ fs.chunkIds, ∃ c, JsMap.get chunks cid = some c
  owned : ∀ cid c, JsMap.get chunks cid = some c →
    ∃ p fs, JsMap.get fileStates p = some fs ∧ cid ∈ fs.chunkIds
  wfIds : ∀ p fs, JsMap.get fileStates p = some fs →
    ∀ cid ∈ fs.chunkIds, ∃ i, cid = mkChunkId p i

theorem MapsWF.owner_unique {chunks : JsMap RagChunk}
    {fileStates : JsMap RagFileState} (h : MapsWF chunks fileStates)
    {p₁ p₂ : String} {fs₁ fs₂ : RagFileState} {cid : String}
    (h₁ : JsMap.get fileStates p₁ = some fs₁) (hm₁ : cid ∈ fs₁.chunkIds)
    (h₂ : JsMap.get fileStates p₂ = some fs₂) (hm₂ : cid ∈ fs₂.chunkIds) :
    p₁ = p₂ := by
  obtain ⟨i, hi⟩ := h.wfIds p₁ fs₁ h₁ cid hm₁
  obtain ⟨j, hj⟩ := h.wfIds p₂ fs₂ h₂ cid hm₂
  exact mkChunkId_path_inj (hi ▸ hj)

/-- The induction invariant of the deletion pass: `ks` is the unprocessed
suffix of the tracked-path snapshot, `s` the pre-pass state, `a` the
accumulator. -/
def DelInv (cf : List String) (s a : TxState) (ks : List String) : Prop :=
  JsMap.NK a.chunks ∧ JsMap.NK a.fileStates
  ∧ (∀ p, p ∈ cf ∨ p ∈ ks →
      JsMap.get a.fileStates p = JsMap.get s.fileStates p)
  ∧ (∀ p, p ∉ cf → p ∉ ks → JsMap.get a.fileStates p = none)
  ∧ (∀ cid c, JsMap.get a.chunks cid = some c →
      JsMap.get s.chunks cid = some c)
  ∧ (∀ p fs, JsMap.get s.fileStates p = some fs → p ∉ cf → p ∉ ks →
      ∀ cid ∈ fs.chunkIds, JsMap.get a.chunks cid = none)
  ∧ (∀ cid c, JsMap.get s.chunks cid = some c →
      (∀ p fs, JsMap.get s.fileStates p = some fs → cid ∈ fs.chunkIds →
        (p ∈ cf ∨ p ∈ ks)) →
      JsMap.get a.chunks cid = some c)

theorem delFold_inv (cf : List String) (s : TxState) :
    ∀ (ks : List String) (a : TxState) (flag : Bool),
      ks.Nodup →
      (∀ k ∈ ks, ∃ st, JsMap.get s.fileStates k = some st) →
      DelInv cf s a ks →
      DelInv cf s ((ks.foldl (deleteStep cf) (a, flag)).1) [] := by
  intro ks
  induction ks with
  | nil => intro a flag _ _ hinv; exact hinv
  | cons k rest ih =>
      intro a flag hnd hsome hinv
      obtain ⟨hnk₁, hnk₂, h₃, h₄, h₅, h₆, h₇⟩ := hinv
      have hknr : k ∉ rest := (List.nodup_cons.mp hnd).1
      rw [List.foldl_cons]
      by_cases hk : k ∈ cf
      · have hstep : deleteStep cf (a, flag) k = (a, flag) := by
          unfold deleteStep; rw [if_pos hk]
        rw [hstep]
        refine ih a flag (List.nodup_cons.mp hnd).2
          (fun k' hk' => hsome k' (List.mem_cons_of_mem _ hk')) ?_
        refine ⟨hnk₁, hnk₂, ?_, ?_, h₅, ?_, ?_⟩
        · intro p hp
          refine h₃ p ?_
          rcases hp with hp | hp
          exacts [Or.inl hp, Or.inr (List.mem_cons_of_mem _ hp)]
        · intro p hp₁ hp₂
          have hpk : p ≠ k := fun hh => hp₁ (hh ▸ hk)
          exact h₄ p hp₁ (by
            intro hmem
            rcases List.mem_cons.mp hmem with hh | hh
            exacts [hpk hh, hp₂ hh])
        · intro p fs hget hp₁ hp₂ cid hcid
          have hpk : p ≠ k := fun hh => hp₁ (hh ▸ hk)
          exact h₆ p fs hget hp₁ (by
            intro hmem
            rcases List.mem_cons.mp hmem with hh | hh
            exacts [hpk hh, hp₂ hh]) cid hcid
        · intro cid c hget hown
          exact h₇ cid c hget (fun p fs hp hcid => by
            rcases hown p fs hp hcid with hp' | hp'
            exacts [Or.inl hp', Or.inr (List.mem_cons_of_mem _ hp')])
      · obtain ⟨stk, hstk⟩ := hsome k (List.mem_cons_self _ _)
        have hak : JsMap.get a.fileStates k = some stk := by
          rw [h₃ k (Or.inr (List.mem_cons_self _ _))]; exact hstk
        have hstep : deleteStep cf (a, flag) k = ({ a with chunks := removeChunkIds a.chunks stk.chunkIds, fileStates := JsMap.delete a.fileStates k }, true) := by
          unfold deleteStep
          rw [if_neg hk]
          simp only [hak]
        rw [hstep]
        refine ih _ true (List.nodup_cons.mp hnd).2
          (fun k' hk' => hsome k' (List.mem_cons_of_mem _ hk')) ?_
        refine ⟨removeChunkIds_NK hnk₁ _, hnk₂.delete k, ?_, ?_, ?_, ?_, ?_⟩
        · intro p hp
          have hpk : p ≠ k := by
            rcases hp with hp | hp
            · exact fun hh => hk (hh ▸ hp)
            · exact fun hh => hknr (hh ▸ hp)
          show JsMap.get (JsMap.delete a.fileStates k) p = _
          rw [JsMap.get_delete_ne _ k p hpk]
          refine h₃ p ?_
          rcases hp with hp | hp
          exacts [Or.inl hp, Or.inr (List.mem_cons_of_mem _ hp)]
        · intro p hp₁ hp₂
          show JsMap.get (JsMap.delete a.fileStates k) p = none
          by_cases hpk : p = k
          · subst hpk
            exact JsMap.get_delete_self hnk₂ p
          · rw [JsMap.get_delete_ne _ k p hpk]
            exact h₄ p hp₁ (by
              intro hmem
              rcases List.mem_cons.mp hmem with hh | hh
              exacts [hpk hh, hp₂ hh])
        · intro cid c hget
          exact h₅ cid c (removeChunkIds_get_some hnk₁ hget)
        · intro p fs hget hp₁ hp₂ cid hcid
          show JsMap.get (removeChunkIds a.chunks stk.chunkIds) cid = none
          by_cases hpk : p = k
          · subst hpk
            have hfs : fs = stk := by
              rw [hget] at hstk
              exact Option.some.inj hstk
            subst hfs
            exact removeChunkIds_get_mem hnk₁ hcid
          · have hnone : JsMap.get a.chunks cid = none :=
              h₆ p fs hget hp₁ (by
                intro hmem
                rcases List.mem_cons.mp hmem with hh | hh
                exacts [hpk hh, hp₂ hh]) cid hcid
            exact removeChunkIds_get_none hnk₁ hnone
        · intro cid c hget hown
          have hsome' : JsMap.get a.chunks cid = some c :=
            h₇ cid c hget (fun p fs hp hcid => by
              rcases hown p fs hp hcid with hp' | hp'
              exacts [Or.inl hp', Or.inr (List.mem_cons_of_mem _ hp')])
          have hnotmem : cid ∉ stk.chunkIds := by
            intro hmem
            rcases hown k stk hstk hmem with hh | hh
            exacts [hk hh, hknr hh]
          show JsMap.get (removeChunkIds a.chunks stk.chunkIds) cid = some c
          rw [removeChunkIds_get_not_mem hnotmem]
          exact hsome'

/-- The deletion pass, summarised: the invariant holds of its result with
no path left to process. -/
theorem deletePass_DelInv (cf : List String) (s : TxState)
    (hnk₁ : JsMap.NK s.chunks) (hnk₂ : JsMap.NK s.fileStates) :
    DelInv cf s (deletePass cf s).1 [] := by
  unfold deletePass
  refine delFold_inv cf s (JsMap.keys s.fileStates) s false hnk₂ ?_ ?_
  · intro k hk
    have hsome : (JsMap.get s.fileStates k).isSome :=
      (JsMap.mem_keys_iff_get_isSome _ _).mp hk
    rcases hg : JsMap.get s.fileStates k with _ | st
    · rw [hg] at hsome; cases hsome
    · exact ⟨st, rfl⟩
  · refine ⟨hnk₁, hnk₂, fun p _ => rfl, ?_, fun _ _ h => h, ?_, fun _ _ h _ => h⟩
    · intro p _ hp₂
      exact JsMap.get_eq_none_of_not_mem_keys
        (fun hm => hp₂ hm)
    · intro p fs hget _ hp₂ cid _
      exact absurd ((JsMap.mem_keys_iff_get_isSome _ _).mpr
        (by rw [hget]; rfl)) hp₂

theorem MapsWF.of_eq {c₁ c₂ : JsMap RagChunk} {f₁ f₂ : JsMap RagFileState}
    (h : MapsWF c₁ f₁) (hc : c₂ = c₁) (hf : f₂ = f₁) : MapsWF c₂ f₂ := by
  subst hc; subst hf; exact h

/-- Well-formedness survives the deletion pass. -/
theorem deletePass_WF (cf : List String) (s : TxState)
    (hwf : MapsWF s.chunks s.fileStates) :
    MapsWF (deletePass cf s).1.chunks (deletePass cf s).1.fileStates := by
  obtain ⟨hnk₁, hnk₂, h₃, h₄, h₅, h₆, h₇⟩ :=
    deletePass_DelInv cf s hwf.nkChunks hwf.nkStates
  refine ⟨hnk₁, hnk₂, ?_, ?_, ?_⟩
  · intro p fs hget cid hcid
    have hpcf : p ∈ cf := by
      by_contra hp
      rw [h₄ p hp (List.not_mem_nil p)] at hget
      cases hget
    have hgets : JsMap.get s.fileStates p = some fs := by
      rw [← h₃ p (Or.inl hpcf)]; exact hget
    obtain ⟨c, hc⟩ := hwf.idsExist p fs hgets cid hcid
    refine ⟨c, h₇ cid c hc ?_⟩
    intro p' fs' hget' hcid'
    left
    obtain ⟨i, hi⟩ := hwf.wfIds p fs hgets cid hcid
    obtain ⟨i', hi'⟩ := hwf.wfIds p' fs' hget' cid hcid'
    have : p = p' := mkChunkId_path_inj (hi ▸ hi')
    exact this ▸ hpcf
  · intro cid c hget
    obtain ⟨p, fs, hp, hm⟩ := hwf.owned cid c (h₅ cid c hget)
    have hpcf : p ∈ cf := by
      by_contra hp'
      have := h₆ p fs hp hp' (List.not_mem_nil p) cid hm
      rw [this] at hget
      cases hget
    exact ⟨p, fs, by rw [h₃ p (Or.inl hpcf)]; exact hp, hm⟩
  · intro p fs hget cid hcid
    have hpcf : p ∈ cf := by
      by_contra hp
      rw [h₄ p hp (List.not_mem_nil p)] at hget
      cases hget
    have hgets : JsMap.get s.fileStates p = some fs := by
      rw [← h₃ p (Or.inl hpcf)]; exact hget
    exact hwf.wfIds p fs hgets cid hcid

theorem JsMap.get_set_isSome {α : Type} (m : JsMap α) (k : String) (v : α)
    (k₁ : String) (h : (JsMap.get m k₁).isSome) :
    (JsMap.get (JsMap.set m k v) k₁).isSome := by
  by_cases hk : k₁ = k
  · subst hk
    rw [JsMap.get_set_self]
    rfl
  · rw [JsMap.get_set_ne m k v k₁ hk]
    exact h

/-- The content-hash pass only refreshes `modifiedAt`/`size` of existing
file states: per key, presence and the `chunkIds` list are untouched. -/
theorem hashFold_states_shape (env : IndexEnv) :
    ∀ (cfs : List CandidateFile) (acc : TxState × List ProcessItem),
      (JsMap.NK acc.1.fileStates →
        JsMap.NK (cfs.foldl (hashStep env) acc).1.fileStates)
      ∧ ∀ p, Option.map RagFileState.chunkIds
          (JsMap.get (cfs.foldl (hashStep env) acc).1.fileStates p)
        = Option.map RagFileState.chunkIds
          (JsMap.get acc.1.fileStates p) := by
  intro cfs
  induction cfs with
  | nil => intro acc; exact ⟨fun h => h, fun _ => rfl⟩
  | cons f rest ih =>
      intro acc
      rw [List.foldl_cons]
      rcases hget : JsMap.get acc.1.fileStates f.relativePath with _ | prev
      · have hstep : hashStep env acc f
            = (acc.1, acc.2 ++ [⟨f, env.readFile f.relativePath,
                env.contentHash (env.readFile f.relativePath)⟩]) := by
          unfold hashStep
          simp only [hget]
        rw [hstep]
        exact ih (acc.1, acc.2 ++ [⟨f, env.readFile f.relativePath,
          env.contentHash (env.readFile f.relativePath)⟩])
      · by_cases hcond : (prev.contentHash != ""
            && prev.contentHash
              == env.contentHash (env.readFile f.relativePath)) = true
        · have hstep : hashStep env acc f
              = ({ acc.1 with
                  fileStates := JsMap.set acc.1.fileStates f.relativePath
                    { prev with modifiedAt := f.modifiedAt, size := f.size },
                  status := { acc.1.status with
                    skippedUnchanged :=
                      acc.1.status.skippedUnchanged + 1 } }, acc.2) := by
            unfold hashStep
            simp only [hget]
            rw [if_pos hcond]
          rw [hstep]
          obtain ⟨ihnk, ihshape⟩ := ih ({ acc.1 with
              fileStates := JsMap.set acc.1.fileStates f.relativePath
                { prev with modifiedAt := f.modifiedAt, size := f.size },
              status := { acc.1.status with
                skippedUnchanged :=
                  acc.1.status.skippedUnchanged + 1 } }, acc.2)
          refine ⟨fun hnk => ihnk (hnk.set _ _), ?_⟩
          intro p
          rw [ihshape p]
          by_cases hp : p = f.relativePath
          · subst hp
            show Option.map _
              (JsMap.get (JsMap.set _ _ _) f.relativePath) = _
            rw [JsMap.get_set_self, hget]
            rfl
          · show Option.map _ (JsMap.get (JsMap.set _ _ _) p) = _
            rw [JsMap.get_set_ne _ _ _ p hp]
        · have hstep : hashStep env acc f
              = (acc.1, acc.2 ++ [⟨f, env.readFile f.relativePath,
                  env.contentHash (env.readFile f.relativePath)⟩]) := by
            unfold hashStep
            simp only [hget]
            rw [if_neg hcond]
          rw [hstep]
          exact ih (acc.1, acc.2 ++ [⟨f, env.readFile f.relativePath,
            env.contentHash (env.readFile f.relativePath)⟩])

/-- If a second file-state map has the same per-key `chunkIds` shape, the
well-formedness invariant transfers to it. -/
theorem MapsWF.of_states_shape {chunks : JsMap RagChunk}
    {fs₁ fs₂ : JsMap RagFileState} (hwf : MapsWF chunks fs₁)
    (hnk : JsMap.NK fs₂)
    (hshape : ∀ p, Option.map RagFileState.chunkIds (JsMap.get fs₂ p)
      = Option.map RagFileState.chunkIds (JsMap.get fs₁ p)) :
    MapsWF chunks fs₂ := by
  refine ⟨hwf.nkChunks, hnk, ?_, ?_, ?_⟩
  · intro p fs hget cid hcid
    have h := hshape p
    rw [hget] at h
    obtain ⟨fs', hfs', hids⟩ := Option.map_eq_some'.mp h.symm
    exact hwf.idsExist p fs' hfs' cid (by rw [← hids] at hcid; exact hcid)
  · intro cid c hget
    obtain ⟨p, fs', hp, hm⟩ := hwf.owned cid c hget
    have h := hshape p
    rw [hp] at h
    obtain ⟨fs, hfs, hids⟩ := Option.map_eq_some'.mp h
    exact ⟨p, fs, hfs, by rw [hids]; exact hm⟩
  · intro p fs hget cid hcid
    have h := hshape p
    rw [hget] at h
    obtain ⟨fs', hfs', hids⟩ := Option.map_eq_some'.mp h.symm
    exact hwf.wfIds p fs' hfs' cid (by rw [← hids] at hcid; exact hcid)

/-- Well-formedness survives the content-hash pass. -/
theorem hashPass_WF (env : IndexEnv) (s : TxState)
    (cfs : List CandidateFile) (hwf : MapsWF s.chunks s.fileStates) :
    MapsWF (hashPass env s cfs).1.chunks (hashPass env s cfs).1.fileStates := by
  have hch : (hashPass env s cfs).1.chunks = s.chunks :=
    (hashPass_frame env s cfs).1
  obtain ⟨hnk, hshape⟩ := hashFold_states_shape env cfs (s, [])
  rw [hch]
  exact hwf.of_states_shape (hnk hwf.nkStates) hshape

/-- Every item produced by the content-hash pass comes from its candidate
list. -/
theorem hashFold_items (env : IndexEnv) :
    ∀ (cfs : List CandidateFile) (acc : TxState × List ProcessItem)
      (it : ProcessItem), it ∈ (cfs.foldl (hashStep env) acc).2 →
      it ∈ acc.2 ∨ it.file ∈ cfs := by
  intro cfs
  induction cfs with
  | nil => intro acc it h; exact Or.inl h
  | cons f rest ih =>
      intro acc it h
      rw [List.foldl_cons] at h
      have hsnd : (hashStep env acc f).2 = acc.2
          ∨ (hashStep env acc f).2
            = acc.2 ++ [⟨f, env.readFile f.relativePath,
                env.contentHash (env.readFile f.relativePath)⟩] := by
        rcases hget : JsMap.get acc.1.fileStates f.relativePath with _ | prev
        · refine Or.inr ?_
          have hstep : hashStep env acc f
              = (acc.1, acc.2 ++ [⟨f, env.readFile f.relativePath,
                  env.contentHash (env.readFile f.relativePath)⟩]) := by
            unfold hashStep
            simp only [hget]
          rw [hstep]
        · by_cases hcond : (prev.contentHash != ""
              && prev.contentHash
                == env.contentHash (env.readFile f.relativePath)) = true
          · refine Or.inl ?_
            have hstep : hashStep env acc f
                = ({ acc.1 with
                    fileStates := JsMap.set acc.1.fileStates f.relativePath
                      { prev with
                        modifiedAt := f.modifiedAt, size := f.size },
                    status := { acc.1.status with
                      skippedUnchanged :=
                        acc.1.status.skippedUnchanged + 1 } }, acc.2) := by
              unfold hashStep
              simp only [hget]
              rw [if_pos hcond]
            rw [hstep]
          · refine Or.inr ?_
            have hstep : hashStep env acc f
                = (acc.1, acc.2 ++ [⟨f, env.readFile f.relativePath,
                    env.contentHash (env.readFile f.relativePath)⟩]) := by
              unfold hashStep
              simp only [hget]
              rw [if_neg hcond]
            rw [hstep]
      rcases ih (hashStep env acc f) it h with hin | hin
      · rcases hsnd with he | he
        · rw [he] at hin
          exact Or.inl hin
        · rw [he] at hin
          rcases List.mem_append.mp hin with hin' | hin'
          · exact Or.inl hin'
          · have : it = (⟨f, env.readFile f.relativePath,
                env.contentHash (env.readFile f.relativePath)⟩ : ProcessItem) :=
              List.mem_singleton.mp hin'
            exact Or.inr (by rw [this]; exact List.mem_cons_self _ _)
      · exact Or.inr (List.mem_cons_of_mem _ hin)


/-- The body of the chunk-insertion fold of `insertChunks`, named for the
lemmas below. -/
def insertStep (f : CandidateFile) (vectors : List (List ℚ))
    (acc : JsMap RagChunk × List String) (it : Nat × String) :
    JsMap RagChunk × List String :=
  match vectors.get? it.1 with
  | some v =>
      let cid := mkChunkId f.relativePath it.1
      (JsMap.set acc.1 cid
        ⟨cid, f.relativePath, f.modifiedAt, it.2, v⟩, acc.2 ++ [cid])
  | none => acc

theorem insertChunks_eq (m : JsMap RagChunk) (f : CandidateFile)
    (texts : List String) (vectors : List (List ℚ)) :
    insertChunks m f texts vectors
      = texts.enum.foldl (insertStep f vectors) (m, []) := rfl

/-- The per-file chunk-insertion fold, characterised: keys are preserved
or freshly minted, minted ids are `"{path}::{i}"` ids present in the
final map, ids of other files are untouched, and already-recorded ids
stay recorded. -/
theorem insertFold_spec (f : CandidateFile) (vectors : List (List ℚ)) :
    ∀ (l : List (Nat × String)) (m : JsMap RagChunk) (ids0 : List String),
      (JsMap.NK m →
        JsMap.NK (l.foldl (insertStep f vectors) (m, ids0)).1)
      ∧ (∀ cid ∈ (l.foldl (insertStep f vectors) (m, ids0)).2,
          cid ∈ ids0 ∨ ∃ j, cid = mkChunkId f.relativePath j)
      ∧ (∀ cid c,
          JsMap.get (l.foldl (insertStep f vectors) (m, ids0)).1 cid
            = some c →
          JsMap.get m cid = some c
            ∨ cid ∈ (l.foldl (insertStep f vectors) (m, ids0)).2)
      ∧ (∀ cid, (∀ j, cid ≠ mkChunkId f.relativePath j) →
          JsMap.get (l.foldl (insertStep f vectors) (m, ids0)).1 cid
            = JsMap.get m cid)
      ∧ ((∀ cid ∈ ids0, (JsMap.get m cid).isSome) →
          ∀ cid ∈ (l.foldl (insertStep f vectors) (m, ids0)).2,
            (JsMap.get (l.foldl (insertStep f vectors) (m, ids0)).1
              cid).isSome)
      ∧ (∀ x ∈ ids0, x ∈ (l.foldl (insertStep f vectors) (m, ids0)).2) := by
  intro l
  induction l with
  | nil =>
      intro m ids0
      exact ⟨fun h => h, fun cid h => Or.inl h, fun cid c h => Or.inl h,
        fun _ _ => rfl, fun h cid hm => h cid hm, fun x hx => hx⟩
  | cons it rest ih =>
      intro m ids0
      rw [List.foldl_cons]
      rcases hv : vectors.get? it.1 with _ | v
      · have hstep : insertStep f vectors (m, ids0) it = (m, ids0) := by
          unfold insertStep
          simp only [hv]
        rw [hstep]
        exact ih m ids0
      · have hstep : insertStep f vectors (m, ids0) it
            = (JsMap.set m (mkChunkId f.relativePath it.1)
                ⟨mkChunkId f.relativePath it.1, f.relativePath,
                 f.modifiedAt, it.2, v⟩,
               ids0 ++ [mkChunkId f.relativePath it.1]) := by
          unfold insertStep
          simp only [hv]
        rw [hstep]
        obtain ⟨ihA, ihC, ihD, ihE, ihF, ihG⟩ :=
          ih (JsMap.set m (mkChunkId f.relativePath it.1)
            ⟨mkChunkId f.relativePath it.1, f.relativePath,
             f.modifiedAt, it.2, v⟩)
            (ids0 ++ [mkChunkId f.relativePath it.1])
        refine ⟨fun hnk => ihA (hnk.set _ _), ?_, ?_, ?_, ?_, ?_⟩
        · intro cid h
          rcases ihC cid h with hin | hin
          · rcases List.mem_append.mp hin with hin' | hin'
            · exact Or.inl hin'
            · exact Or.inr ⟨it.1, List.mem_singleton.mp hin'⟩
          · exact Or.inr hin
        · intro cid c h
          rcases ihD cid c h with hin | hin
          · by_cases hcid : cid = mkChunkId f.relativePath it.1
            · refine Or.inr ?_
              refine ihG cid ?_
              rw [hcid]
              exact List.mem_append.mpr (Or.inr (List.mem_singleton.mpr rfl))
            · rw [JsMap.get_set_ne _ _ _ _ hcid] at hin
              exact Or.inl hin
          · exact Or.inr hin
        · intro cid hne
          rw [ihE cid hne]
          exact JsMap.get_set_ne _ _ _ _ (hne it.1)
        · intro h0 cid hm
          refine ihF ?_ cid hm
          intro cid' hcid'
          rcases List.mem_append.mp hcid' with hin | hin
          · exact JsMap.get_set_isSome _ _ _ _ (h0 cid' hin)
          · have he := List.mem_singleton.mp hin
            rw [he, JsMap.get_set_self]
            rfl
        · intro x hx
          exact ihG x (List.mem_append.mpr (Or.inl hx))

/-- `insertChunks`, characterised. -/
theorem insertChunks_spec (m : JsMap RagChunk) (f : CandidateFile)
    (texts : List String) (vectors : List (List ℚ)) :
    (JsMap.NK m → JsMap.NK (insertChunks m f texts vectors).1)
    ∧ (∀ cid ∈ (insertChunks m f texts vectors).2,
        ∃ j, cid = mkChunkId f.relativePath j)
    ∧ (∀ cid c, JsMap.get (insertChunks m f texts vectors).1 cid = some c →
        JsMap.get m cid = some c ∨ cid ∈ (insertChunks m f texts vectors).2)
    ∧ (∀ cid, (∀ j, cid ≠ mkChunkId f.relativePath j) →
        JsMap.get (insertChunks m f texts vectors).1 cid = JsMap.get m cid)
    ∧ (∀ cid ∈ (insertChunks m f texts vectors).2,
        (JsMap.get (insertChunks m f texts vectors).1 cid).isSome) := by
  obtain ⟨hA, hC, hD, hE, hF, _⟩ :=
    insertFold_spec f vectors texts.enum m []
  rw [insertChunks_eq]
  refine ⟨hA, ?_, hD, hE, ?_⟩
  · intro cid h
    rcases hC cid h with hin | hin
    · cases hin
    · exact hin
  · intro cid h
    exact hF (fun cid' hc => absurd hc (List.not_mem_nil cid')) cid h

/-- The upsert performed for one changed file (remove the previous
chunks, insert the fresh list, replace the `FileState`): well-formedness
is preserved and every new chunk key is either an old key or a fresh id
of this file. -/
theorem upsertFile_WF (f : CandidateFile) (texts : List String)
    (vectors : List (List ℚ)) (chash : String)
    (m : JsMap RagChunk) (fsm : JsMap RagFileState)
    (hwf : MapsWF m fsm) (oldIds : List String)
    (hother : ∀ p' fs', p' ≠ f.relativePath →
      JsMap.get fsm p' = some fs' → ∀ cid ∈ fs'.chunkIds, cid ∉ oldIds)
    (hrel : ∀ prev, JsMap.get fsm f.relativePath = some prev →
      ∀ cid ∈ prev.chunkIds, cid ∈ oldIds) :
    MapsWF (insertChunks (removeChunkIds m oldIds) f texts vectors).1
      (JsMap.set fsm f.relativePath
        ⟨f.modifiedAt, f.size, chash,
         (insertChunks (removeChunkIds m oldIds) f texts vectors).2⟩)
    ∧ ∀ cid c,
        JsMap.get
          (insertChunks (removeChunkIds m oldIds) f texts vectors).1 cid
          = some c →
        JsMap.get m cid = some c
          ∨ ∃ j, cid = mkChunkId f.relativePath j := by
  have hnk₃ : JsMap.NK (removeChunkIds m oldIds) :=
    removeChunkIds_NK hwf.nkChunks oldIds
  obtain ⟨iA, iB, iC, iD, iE⟩ :=
    insertChunks_spec (removeChunkIds m oldIds) f texts vectors
  constructor
  · refine ⟨iA hnk₃, hwf.nkStates.set _ _, ?_, ?_, ?_⟩
    · intro p fs hget cid hcid
      by_cases hp : p = f.relativePath
      · subst hp
        rw [JsMap.get_set_self] at hget
        have hfs := Option.some.inj hget
        rw [← hfs] at hcid
        have := iE cid hcid
        exact Option.isSome_iff_exists.mp this
      · rw [JsMap.get_set_ne _ _ _ _ hp] at hget
        obtain ⟨c, hc⟩ := hwf.idsExist p fs hget cid hcid
        obtain ⟨i, hi⟩ := hwf.wfIds p fs hget cid hcid
        have hne : ∀ j, cid ≠ mkChunkId f.relativePath j := by
          intro j hj
          exact hp (mkChunkId_path_inj (hi ▸ hj))
        have hnotold : cid ∉ oldIds := hother p fs hp hget cid hcid
        refine ⟨c, ?_⟩
        rw [iD cid hne, removeChunkIds_get_not_mem hnotold]
        exact hc
    · intro cid c h
      rcases iC cid c h with hm₃ | hmem
      · have hmm : JsMap.get m cid = some c :=
          removeChunkIds_get_some hwf.nkChunks hm₃
        obtain ⟨p', fs', hp', hcid'⟩ := hwf.owned cid c hmm
        have hppr : p' ≠ f.relativePath := by
          intro hh
          rw [hh] at hp'
          have hold := hrel fs' hp' cid hcid'
          rw [removeChunkIds_get_mem hwf.nkChunks hold] at hm₃
          cases hm₃
        refine ⟨p', fs', ?_, hcid'⟩
        rw [JsMap.get_set_ne _ _ _ _ hppr]
        exact hp'
      · exact ⟨f.relativePath,
          ⟨f.modifiedAt, f.size, chash,
           (insertChunks (removeChunkIds m oldIds) f texts vectors).2⟩,
          JsMap.get_set_self _ _ _, hmem⟩
    · intro p fs hget cid hcid
      by_cases hp : p = f.relativePath
      · subst hp
        rw [JsMap.get_set_self] at hget
        have hfs := Option.some.inj hget
        rw [← hfs] at hcid
        exact iB cid hcid
      · rw [JsMap.get_set_ne _ _ _ _ hp] at hget
        exact hwf.wfIds p fs hget cid hcid
  · intro cid c h
    rcases iC cid c h with hm₃ | hmem
    · exact Or.inl (removeChunkIds_get_some hwf.nkChunks hm₃)
    · exact Or.inr (iB cid hmem)

/-- Processing one changed file preserves well-formedness, and every
chunk key it leaves behind is an old key or a fresh id of that file. -/
theorem processFile_ok_wf (env : IndexEnv) (item : ProcessItem)
    (s s'' : TxState) (hwf : MapsWF s.chunks s.fileStates)
    (h : processFile env item s = Except.ok s'') :
    MapsWF s''.chunks s''.fileStates
    ∧ ∀ cid c, JsMap.get s''.chunks cid = some c →
        JsMap.get s.chunks cid = some c
          ∨ ∃ j, cid = mkChunkId item.file.relativePath j := by
  unfold processFile at h
  rcases hca : checkAbort env s with ⟨e, sE⟩ | s₁
  · rw [hca] at h
    cases h
  · rw [hca] at h
    simp only [] at h
    have hs₁ : s₁ = { s with clock := s.clock + 1 } := checkAbort_ok hca
    rcases hel : embedLoop env (toBatches env.batchSize
        (env.chunkTexts item.content (env.extOf item.file.relativePath))) s₁
      with ⟨e, sE⟩ | ⟨vectors, s₂⟩
    · rw [hel] at h
      cases h
    · rw [hel] at h
      have heq := embedLoop_eqc env (toBatches env.batchSize
        (env.chunkTexts item.content (env.extOf item.file.relativePath))) s₁
      rw [hel] at heq
      unfold stateOfEmbed at heq
      rw [hs₁] at heq
      have hch : s₂.chunks = s.chunks := heq.1
      have hfs : s₂.fileStates = s.fileStates := heq.2.1
      have hwf₂ : MapsWF s₂.chunks s₂.fileStates := hwf.of_eq hch hfs
      rcases hprev : JsMap.get s₂.fileStates item.file.relativePath
        with _ | prev
      · simp only [hprev] at h
        have h' := Except.ok.inj h
        subst h'
        have hup := upsertFile_WF item.file
          (env.chunkTexts item.content (env.extOf item.file.relativePath))
          vectors item.contentHash s₂.chunks s₂.fileStates hwf₂ []
          (fun p' fs' _ _ cid _ => List.not_mem_nil cid)
          (fun prev' hp => by rw [hprev] at hp; cases hp)
        refine ⟨hup.1, ?_⟩
        intro cid c hc
        rcases hup.2 cid c hc with hin | hin
        · rw [← hch]
          exact Or.inl hin
        · exact Or.inr hin
      · simp only [hprev] at h
        have h' := Except.ok.inj h
        subst h'
        have hup := upsertFile_WF item.file
          (env.chunkTexts item.content (env.extOf item.file.relativePath))
          vectors item.contentHash s₂.chunks s₂.fileStates hwf₂
          prev.chunkIds
          (by
            intro p' fs' hne hget cid hcid hmem
            obtain ⟨i, hi⟩ := hwf₂.wfIds item.file.relativePath prev hprev
              cid hmem
            obtain ⟨i', hi'⟩ := hwf₂.wfIds p' fs' hget cid hcid
            exact hne (mkChunkId_path_inj (hi'.symm.trans hi)))
          (by
            intro prev' hp cid hcid
            rw [hprev] at hp
            rw [← Option.some.inj hp] at hcid
            exact hcid)
        refine ⟨hup.1, ?_⟩
        intro cid c hc
        rcases hup.2 cid c hc with hin | hin
        · rw [← hch]
          exact Or.inl hin
        · exact Or.inr hin

/-- The worker loop preserves well-formedness; every chunk key it adds is
a fresh id of one of the processed files. -/
theorem workerLoop_wf (env : IndexEnv) (cur : List String) :
    ∀ (items : List ProcessItem) (s s' : TxState),
      (∀ it ∈ items, it.file.relativePath ∈ cur) →
      MapsWF s.chunks s.fileStates →
      workerLoop env items s = Except.ok s' →
      MapsWF s'.chunks s'.fileStates
      ∧ ∀ cid c, JsMap.get s'.chunks cid = some c →
          JsMap.get s.chunks cid = some c
            ∨ ∃ q ∈ cur, ∃ j, cid = mkChunkId q j := by
  intro items
  induction items with
  | nil =>
      intro s s' _ hwf h
      have h' := Except.ok.inj h
      subst h'
      exact ⟨hwf, fun cid c hc => Or.inl hc⟩
  | cons it rest ih =>
      intro s s' hmem hwf h
      unfold workerLoop at h
      rcases hca : checkAbort env s with ⟨e, sE⟩ | s₁
      · rw [hca] at h
        cases h
      · rw [hca] at h
        simp only [] at h
        have hs₁ : s₁ = { s with clock := s.clock + 1 } := checkAbort_ok hca
        have hwf₁ : MapsWF s₁.chunks s₁.fileStates := by
          rw [hs₁]
          exact hwf
        rcases hpf : processFile env it s₁ with ⟨e, sE⟩ | s₂
        · rw [hpf] at h
          cases h
        · rw [hpf] at h
          obtain ⟨hwf₂, hnew₂⟩ := processFile_ok_wf env it s₁ s₂ hwf₁ hpf
          obtain ⟨hwf', hnew'⟩ := ih s₂ s'
            (fun it' hit' => hmem it' (List.mem_cons_of_mem _ hit'))
            hwf₂ h
          refine ⟨hwf', ?_⟩
          intro cid c hc
          rcases hnew' cid c hc with hin | hin
          · rcases hnew₂ cid c hin with hin' | hin'
            · refine Or.inl ?_
              have : s₁.chunks = s.chunks := by rw [hs₁]
              rw [← this]
              exact hin'
            · exact Or.inr ⟨it.file.relativePath,
                hmem it (List.mem_cons_self _ _), hin'⟩
          · exact Or.inr hin

/-- `runWithConcurrency` preserves well-formedness; every chunk key it
adds is a fresh id of one of the processed files. -/
theorem runWorkers_wf (env : IndexEnv) (cur : List String)
    (items : List ProcessItem) (s s' : TxState)
    (hmem : ∀ it ∈ items, it.file.relativePath ∈ cur)
    (hwf : MapsWF s.chunks s.fileStates)
    (h : runWorkers env items s = Except.ok s') :
    MapsWF s'.chunks s'.fileStates
    ∧ ∀ cid c, JsMap.get s'.chunks cid = some c →
        JsMap.get s.chunks cid = some c
          ∨ ∃ q ∈ cur, ∃ j, cid = mkChunkId q j := by
  unfold runWorkers at h
  by_cases hemp : items.isEmpty
  · rw [if_pos hemp] at h
    have h' := Except.ok.inj h
    subst h'
    exact ⟨hwf, fun cid c hc => Or.inl hc⟩
  · rw [if_neg hemp] at h
    rcases hwl : workerLoop env items s with ⟨e, sE⟩ | s₁
    · rw [hwl] at h
      cases h
    · rw [hwl] at h
      obtain ⟨hwf₁, hnew₁⟩ := workerLoop_wf env cur items s s₁ hmem hwf hwl
      have hs' : s' = { s₁ with clock := s₁.clock + 1 } := checkAbort_ok h
      rw [hs']
      exact ⟨hwf₁, hnew₁⟩

theorem MapsWF_nil :
    MapsWF ([] : JsMap RagChunk) ([] : JsMap RagFileState) := by
  refine ⟨List.nodup_nil, List.nodup_nil, ?_, ?_, ?_⟩
  · intro p fs h
    rw [JsMap.get_nil] at h
    cases h
  · intro cid c h
    rw [JsMap.get_nil] at h
    cases h
  · intro p fs h
    rw [JsMap.get_nil] at h
    cases h

/-- Claim C3: after a completed `index()` transaction on a state
satisfying the chunk-map/file-state invariant, every `chunkId` listed in
a tracked `FileState.chunkIds` is a key of the chunks map, every key of
the chunks map is listed in exactly one `FileState.chunkIds`, and after
a file is deleted from the tree (tracked before, absent from the scan)
none of its former chunk ids remain in the chunks map. -/
theorem index_chunk_consistency (env : IndexEnv) (s₀ s' : TxState)
    (hwf : MapsWF s₀.chunks s₀.fileStates)
    (hok : txBody env s₀ = Except.ok s') :
    (∀ p fs, JsMap.get s'.fileStates p = some fs →
      ∀ cid ∈ fs.chunkIds, ∃ c, JsMap.get s'.chunks cid = some c)
    ∧ (∀ cid c, JsMap.get s'.chunks cid = some c →
        ∃ p fs, JsMap.get s'.fileStates p = some fs ∧ cid ∈ fs.chunkIds
          ∧ ∀ p' fs', JsMap.get s'.fileStates p' = some fs' →
              cid ∈ fs'.chunkIds → p' = p)
    ∧ (∀ p fs₀, JsMap.get s₀.fileStates p = some fs₀ →
        p ∉ currentOf env →
        ∀ cid ∈ fs₀.chunkIds, JsMap.get s'.chunks cid = none) := by
  obtain ⟨hsig, s₇, hrw, hcases⟩ := txBody_ok_decomp env s₀ s' hok
  have hwfPrep : MapsWF (prepOf env s₀).chunks (prepOf env s₀).fileStates :=
    hwf
  have hwfDel : MapsWF (delOf env s₀).1.chunks (delOf env s₀).1.fileStates :=
    deletePass_WF (currentOf env) (prepOf env s₀) hwfPrep
  have hinv := deletePass_DelInv (currentOf env) (prepOf env s₀)
    hwfPrep.nkChunks hwfPrep.nkStates
  have hmf := metaPass_frame (delOf env s₀).1 env.candidates
  have hwfMeta : MapsWF (metaOf env s₀).1.chunks
      (metaOf env s₀).1.fileStates :=
    hwfDel.of_eq hmf.1 hmf.2.1
  have hwfHp : MapsWF (hpOf env s₀).1.chunks (hpOf env s₀).1.fileStates :=
    hashPass_WF env (metaOf env s₀).1 (metaOf env s₀).2 hwfMeta
  have hwfPre : MapsWF (preWorkerOf env s₀).chunks
      (preWorkerOf env s₀).fileStates := hwfHp
  have hmem : ∀ it ∈ (hpOf env s₀).2,
      it.file.relativePath ∈ currentOf env := by
    intro it hit
    have h₁ := hashFold_items env (metaOf env s₀).2
      ((metaOf env s₀).1, []) it hit
    rcases h₁ with h₁ | h₁
    · cases h₁
    · have h₂ : (metaOf env s₀).2 = [] ++ env.candidates.filter
          (fun f => !(metaMatch (delOf env s₀).1.fileStates f)) :=
        metaFold_cf env.candidates (delOf env s₀).1 []
      rw [h₂] at h₁
      rw [List.nil_append] at h₁
      have h₃ : it.file ∈ env.candidates := List.mem_of_mem_filter h₁
      exact List.mem_map_of_mem (·.relativePath) h₃
  obtain ⟨hwf₇, hnew₇⟩ := runWorkers_wf env (currentOf env)
    (hpOf env s₀).2 (preWorkerOf env s₀) s₇ hmem hwfPre hrw
  have hc' : s'.chunks = s₇.chunks := by
    rcases hcases with ⟨_, rfl⟩ | ⟨_, rfl⟩ <;> rfl
  have hf' : s'.fileStates = s₇.fileStates := by
    rcases hcases with ⟨_, rfl⟩ | ⟨_, rfl⟩ <;> rfl
  have hwf' : MapsWF s'.chunks s'.fileStates := hwf₇.of_eq hc' hf'
  refine ⟨?_, ?_, ?_⟩
  · intro p fs hget cid hcid
    exact hwf'.idsExist p fs hget cid hcid
  · intro cid c hget
    obtain ⟨p, fs, hp, hm⟩ := hwf'.owned cid c hget
    refine ⟨p, fs, hp, hm, ?_⟩
    intro p' fs' hp' hm'
    exact (hwf'.owner_unique hp' hm' hp hm)
  · intro p fs₀ hp hnotin cid hcid
    have h₆ := hinv.2.2.2.2.2.1
    have hpre : JsMap.get (prepOf env s₀).fileStates p = some fs₀ := hp
    have hdel : JsMap.get (delOf env s₀).1.chunks cid = none :=
      h₆ p fs₀ hpre hnotin (List.not_mem_nil p) cid hcid
    have hpwn : JsMap.get (preWorkerOf env s₀).chunks cid = none := by
      show JsMap.get
        (hashPass env (metaOf env s₀).1 (metaOf env s₀).2).1.chunks cid
        = none
      rw [(hashPass_frame env (metaOf env s₀).1 (metaOf env s₀).2).1]
      show JsMap.get
        (metaPass (delOf env s₀).1 env.candidates).1.chunks cid = none
      rw [hmf.1]
      exact hdel
    rw [hc']
    rcases hq : JsMap.get s₇.chunks cid with _ | c
    · rfl
    · rcases hnew₇ cid c hq with hin | hin
      · rw [hpwn] at hin
        cases hin
      · obtain ⟨q, hqcur, j, hj⟩ := hin
        obtain ⟨i, hi⟩ := hwf.wfIds p fs₀ hp cid hcid
        have hpq : p = q := mkChunkId_path_inj (hi.symm.trans hj)
        rw [hpq] at hnotin
        exact absurd hqcur hnotin

def c3Env : IndexEnv :=
  { candidates := [⟨"a.md", 1, 5⟩],
    readFile := fun _ => "alpha",
    contentHash := fun _ => "h1",
    extOf := fun _ => ".md",
    chunkTexts := fun _ _ => ["alpha"],
    embedBatch := fun _ => Except.ok [[1]],
    batchSize := 16,
    sig := fun _ => false,
    now := 0 }

def c3State : TxState :=
  { chunks := [],
    fileStates := [],
    indexRevision := 0,
    status := ⟨"idle", "", 0, 0, 0, 0, 0⟩,
    disk := [],
    clock := 0 }

def c3Final : TxState := stateOf (txBody c3Env c3State)

theorem index_chunk_consistency_witness :
    (∀ p fs, JsMap.get c3Final.fileStates p = some fs →
      ∀ cid ∈ fs.chunkIds, ∃ c, JsMap.get c3Final.chunks cid = some c)
    ∧ (∀ cid c, JsMap.get c3Final.chunks cid = some c →
        ∃ p fs, JsMap.get c3Final.fileStates p = some fs
          ∧ cid ∈ fs.chunkIds
          ∧ ∀ p' fs', JsMap.get c3Final.fileStates p' = some fs' →
              cid ∈ fs'.chunkIds → p' = p)
    ∧ (∀ p fs₀, JsMap.get c3State.fileStates p = some fs₀ →
        p ∉ currentOf c3Env →
        ∀ cid ∈ fs₀.chunkIds, JsMap.get c3Final.chunks cid = none) :=
  index_chunk_consistency c3Env c3State c3Final MapsWF_nil (by decide)
